import Mathlib

set_option maxHeartbeats 1000000

/-!
Verification of the `mcp-memory-rust` memory store against its specification.

The Rust sources are shallowly embedded: pure functions become Lean functions,
SQLite state becomes explicit record-of-lists state, `f64` arithmetic is
modelled over `ℝ` (and over `ℚ` where the source values are rational), machine
floats in the codec are modelled by their 32-bit IEEE-754 bit patterns.
-/

/-! ## Codec (`src/embedding.rs`: `f32_to_bytes` / `bytes_to_f32`)

An `f32` is represented by its 32-bit bit pattern, a natural number `< 2^32`;
`f32::to_le_bytes` / `f32::from_le_bytes` act exactly on that pattern, so the
byte-level round-trip below is the round-trip of the Rust codec. -/

/-- The four little-endian bytes of a 32-bit pattern (`f32::to_le_bytes`). -/
def f32ToLeBytes (w : Nat) : List Nat :=
  [w % 256, w / 256 % 256, w / 65536 % 256, w / 16777216 % 256]

/-- Recombine four little-endian bytes (`f32::from_le_bytes`). -/
def f32FromLeBytes (b0 b1 b2 b3 : Nat) : Nat :=
  b0 + 256 * b1 + 65536 * b2 + 16777216 * b3

/-- `f32_to_bytes`: concatenate the little-endian bytes of each float. -/
def f32_to_bytes (v : List Nat) : List Nat :=
  (v.map f32ToLeBytes).flatten

/-- `bytes_to_f32`: decode groups of four bytes (`chunks_exact(4)`), the
trailing partial group (fewer than four bytes) is dropped. -/
def bytes_to_f32 : List Nat → List Nat
  | b0 :: b1 :: b2 :: b3 :: rest => f32FromLeBytes b0 b1 b2 b3 :: bytes_to_f32 rest
  | _ => []

theorem f32FromLeBytes_toLeBytes (w : Nat) (hw : w < 4294967296) :
    f32FromLeBytes (w % 256) (w / 256 % 256) (w / 65536 % 256) (w / 16777216 % 256) = w := by
  unfold f32FromLeBytes
  omega

theorem bytes_to_f32_cons4 (b0 b1 b2 b3 : Nat) (rest : List Nat) :
    bytes_to_f32 (b0 :: b1 :: b2 :: b3 :: rest) =
      f32FromLeBytes b0 b1 b2 b3 :: bytes_to_f32 rest := rfl

theorem bytes_to_f32_f32_to_bytes (v : List Nat) (hv : ∀ w ∈ v, w < 4294967296) :
    bytes_to_f32 (f32_to_bytes v) = v := by
  induction v with
  | nil => rfl
  | cons w ws ih =>
    have hw : w < 4294967296 := hv w (List.mem_cons_self _ _)
    have hws : ∀ x ∈ ws, x < 4294967296 := fun x hx => hv x (List.mem_cons_of_mem _ hx)
    show bytes_to_f32 (f32ToLeBytes w ++ (ws.map f32ToLeBytes).flatten) = w :: ws
    unfold f32ToLeBytes
    rw [List.cons_append, List.cons_append, List.cons_append, List.cons_append,
      List.nil_append, bytes_to_f32_cons4, f32FromLeBytes_toLeBytes w hw]
    exact congrArg _ (ih hws)

theorem bytes_to_f32_length (b : List Nat) :
    (bytes_to_f32 b).length = b.length / 4 := by
  induction b using bytes_to_f32.induct with
  | case1 b0 b1 b2 b3 rest ih =>
    rw [bytes_to_f32_cons4]
    simp only [List.length_cons, ih]
    omega
  | case2 b h =>
    rcases b with _ | ⟨b0, b⟩
    · rfl
    rcases b with _ | ⟨b1, b⟩
    · simp [bytes_to_f32]
    rcases b with _ | ⟨b2, b⟩
    · simp [bytes_to_f32]
    rcases b with _ | ⟨b3, b⟩
    · simp [bytes_to_f32]
    exact absurd rfl (h b0 b1 b2 b3 b)

theorem bytes_to_f32_take (b : List Nat) :
    bytes_to_f32 b = bytes_to_f32 (b.take (b.length / 4 * 4)) := by
  induction b using bytes_to_f32.induct with
  | case1 b0 b1 b2 b3 rest ih =>
    have hlen : (b0 :: b1 :: b2 :: b3 :: rest).length / 4 * 4 =
        rest.length / 4 * 4 + 1 + 1 + 1 + 1 := by
      simp only [List.length_cons]
      omega
    rw [hlen, List.take_succ_cons, List.take_succ_cons, List.take_succ_cons,
      List.take_succ_cons, bytes_to_f32_cons4, bytes_to_f32_cons4, ← ih]
  | case2 b h =>
    rcases b with _ | ⟨b0, b⟩
    · rfl
    rcases b with _ | ⟨b1, b⟩
    · simp [bytes_to_f32]
    rcases b with _ | ⟨b2, b⟩
    · simp [bytes_to_f32]
    rcases b with _ | ⟨b3, b⟩
    · simp [bytes_to_f32]
    exact absurd rfl (h b0 b1 b2 b3 b)

/-- **C3.** The vector codec round-trips losslessly: decoding the encoding of
any vector of 32-bit floats (represented by their bit patterns) gives the
vector back; and decoding any byte blob yields `⌊|b|/4⌋` little-endian floats,
discarding a trailing partial float rather than erroring. -/
theorem C3_codec_roundtrip :
    (∀ v : List Nat, (∀ w ∈ v, w < 4294967296) →
      bytes_to_f32 (f32_to_bytes v) = v) ∧
    (∀ b : List Nat, (bytes_to_f32 b).length = b.length / 4 ∧
      bytes_to_f32 b = bytes_to_f32 (b.take (b.length / 4 * 4))) :=
  ⟨bytes_to_f32_f32_to_bytes, fun b => ⟨bytes_to_f32_length b, bytes_to_f32_take b⟩⟩

/-- Witness for C3 at a concrete vector (including the maximal pattern) and a
concrete blob with a trailing partial float. -/
theorem C3_codec_roundtrip_witness :
    bytes_to_f32 (f32_to_bytes [0, 1, 4294967295]) = [0, 1, 4294967295] ∧
    (bytes_to_f32 [1, 0, 0, 0, 99, 99]).length = 6 / 4 :=
  ⟨C3_codec_roundtrip.1 [0, 1, 4294967295] (by decide),
   (C3_codec_roundtrip.2 [1, 0, 0, 0, 99, 99]).1⟩

/-! ## Chunker (`src/chunking.rs`: `chunk_text`)

Tokenization models Rust `str::split_whitespace`: split on runs of whitespace
characters, dropping empty tokens. -/

/-- Accumulating whitespace tokenizer over the character list. -/
def wsTokensAux : List Char → List Char → List String
  | [], acc => if acc.isEmpty then [] else [String.mk acc.reverse]
  | c :: cs, acc =>
    if c.isWhitespace then
      if acc.isEmpty then wsTokensAux cs []
      else String.mk acc.reverse :: wsTokensAux cs []
    else wsTokensAux cs (c :: acc)

/-- `text.split_whitespace().collect()` from `chunk_text`. -/
def splitWhitespace (s : String) : List String := wsTokensAux s.toList []

/-- A window of the token list: `words[start..start+size]` (clamped). -/
def tokenWindow (words : List String) (size start : Nat) : List String :=
  (words.drop start).take size

/-- The loop of `chunk_text`: `start` advances by `step = chunk_size - overlap`
each iteration. `fuel` (initially the word count) only bounds the recursion; it
is never exhausted when `1 ≤ step`. (The source loop has no fuel and does not
terminate when `chunk_size ≤ overlap`, which the spec excludes.) -/
def chunkGo (words : List String) (chunkSize step : Nat) : Nat → Nat → List String
  | _, 0 => []
  | start, fuel + 1 =>
    let e := min (start + chunkSize) words.length
    let chunk := " ".intercalate ((words.drop start).take (e - start))
    if words.length ≤ e then [chunk]
    else chunk :: chunkGo words chunkSize step (start + step) fuel

/-- `chunk_text(text, chunk_size, overlap)` from `src/chunking.rs`. -/
def chunk_text (text : String) (chunk_size overlap : Nat) : List String :=
  let words := splitWhitespace text
  if words.length ≤ chunk_size then [text]
  else chunkGo words chunk_size (chunk_size - overlap) 0 words.length

theorem tokenWindow_eq_of_min (words : List String) (size start : Nat)
    (h : start < words.length) :
    (words.drop start).take (min (start + size) words.length - start) =
      tokenWindow words size start := by
  unfold tokenWindow
  rcases Nat.le_total (start + size) words.length with h1 | h1
  · have : min (start + size) words.length - start = size := by omega
    rw [this]
  · have h2 : min (start + size) words.length - start = words.length - start := by omega
    rw [h2, List.take_of_length_le (by rw [List.length_drop]),
      List.take_of_length_le (by rw [List.length_drop]; omega)]

/-- Closed form of the chunking loop: with enough fuel it produces the windows
at starts `start, start + step, start + 2·step, …`, the last one being the
first to reach the end of the token list. -/
theorem chunkGo_spec (words : List String) (size step : Nat)
    (hstep : 1 ≤ step) (hss : step ≤ size) :
    ∀ fuel start, start < words.length → words.length ≤ start + fuel →
      ∃ k, 0 < k ∧
        chunkGo words size step start fuel =
          (List.range k).map
            (fun i => " ".intercalate (tokenWindow words size (start + i * step))) ∧
        words.length ≤ start + (k - 1) * step + size ∧
        (∀ i, i < k - 1 → start + i * step + size < words.length) := by
  intro fuel
  induction fuel with
  | zero => intro start h1 h2; omega
  | succ fuel ih =>
    intro start h1 h2
    simp only [chunkGo]
    by_cases hend : words.length ≤ min (start + size) words.length
    · refine ⟨1, Nat.one_pos, ?_, by omega, by omega⟩
      rw [if_pos hend]
      have h10 : (List.range 1).map
          (fun i => " ".intercalate (tokenWindow words size (start + i * step))) =
          [" ".intercalate (tokenWindow words size (start + 0 * step))] := rfl
      rw [h10, Nat.zero_mul, Nat.add_zero, tokenWindow_eq_of_min words size start h1]
    · rw [if_neg hend]
      have hlt : start + size < words.length := by omega
      obtain ⟨k, hk0, heq, hlast, hmid⟩ := ih (start + step) (by omega) (by omega)
      have harith : ∀ i : Nat, start + step + i * step = start + (i + 1) * step := by
        intro i; ring
      refine ⟨k + 1, Nat.succ_pos k, ?_, ?_, ?_⟩
      · rw [heq, List.range_succ_eq_map, List.map_cons, List.map_map]
        congr 1
        · rw [tokenWindow_eq_of_min words size start h1, Nat.zero_mul, Nat.add_zero]
        · apply List.map_congr_left
          intro i _
          simp only [Function.comp_apply]
          rw [harith i]
      · have h3 : start + step + (k - 1) * step = start + ((k - 1) + 1) * step := harith (k - 1)
        have h4 : k - 1 + 1 = k := by omega
        rw [h4] at h3
        simp only [Nat.add_sub_cancel]
        omega
      · intro i hik
        rw [Nat.add_sub_cancel] at hik
        rcases Nat.eq_zero_or_pos i with rfl | hi
        · simpa using hlt
        · have hi1 : i - 1 < k - 1 := by omega
          have hm := hmid (i - 1) hi1
          have h3 : start + step + (i - 1) * step = start + ((i - 1) + 1) * step := harith (i - 1)
          have h4 : i - 1 + 1 = i := by omega
          rw [h4] at h3
          omega

theorem tokenWindow_length_le (words : List String) (size start : Nat) :
    (tokenWindow words size start).length ≤ size := by
  simp only [tokenWindow, List.length_take]
  omega

theorem tokenWindow_length_eq (words : List String) (size start : Nat)
    (h : words.length ≤ start + size) :
    (tokenWindow words size start).length = words.length - start := by
  simp only [tokenWindow, List.length_take, List.length_drop]
  omega

theorem tokenWindow_drop (words : List String) (size step start : Nat)
    (hss : step ≤ size) :
    (tokenWindow words size start).drop step =
      tokenWindow words (size - step) (start + step) := by
  simp only [tokenWindow]
  rw [List.drop_take, List.drop_drop]

/-- **C4.** For `overlap < size`, `chunk_text` is non-empty; a text of at most
`size` tokens comes back verbatim as the single chunk; otherwise the chunks are
exactly the space-joins of the token windows starting at multiples of
`size - overlap`, each window has at most `size` tokens, the final window ends
at the last token, consecutive windows share exactly `overlap` tokens, and
`chunk_text "a b c d e f g h i j" 4 2` is the documented four-chunk list. -/
theorem C4_chunk_text_windows (t : String) (size overlap : Nat) (h : overlap < size) :
    chunk_text t size overlap ≠ [] ∧
    ((splitWhitespace t).length ≤ size → chunk_text t size overlap = [t]) ∧
    (size < (splitWhitespace t).length →
      ∃ k, 0 < k ∧
        chunk_text t size overlap =
          (List.range k).map
            (fun i => " ".intercalate (tokenWindow (splitWhitespace t) size (i * (size - overlap)))) ∧
        (∀ i, i < k → (tokenWindow (splitWhitespace t) size (i * (size - overlap))).length ≤ size) ∧
        (k - 1) * (size - overlap) +
          (tokenWindow (splitWhitespace t) size ((k - 1) * (size - overlap))).length =
          (splitWhitespace t).length ∧
        (∀ i, i + 1 < k →
          (tokenWindow (splitWhitespace t) size (i * (size - overlap))).drop (size - overlap) =
            tokenWindow (splitWhitespace t) overlap ((i + 1) * (size - overlap)) ∧
          ((tokenWindow (splitWhitespace t) size (i * (size - overlap))).drop
            (size - overlap)).length = overlap)) ∧
    chunk_text "a b c d e f g h i j" 4 2 = ["a b c d", "c d e f", "e f g h", "g h i j"] := by
  set words := splitWhitespace t with hwords
  set step := size - overlap with hstep
  have hstep1 : 1 ≤ step := by omega
  have hss : step ≤ size := by omega
  have main : size < words.length →
      ∃ k, 0 < k ∧
        chunk_text t size overlap =
          (List.range k).map (fun i => " ".intercalate (tokenWindow words size (i * step))) ∧
        (∀ i, i < k → (tokenWindow words size (i * step)).length ≤ size) ∧
        (k - 1) * step + (tokenWindow words size ((k - 1) * step)).length = words.length ∧
        (∀ i, i + 1 < k →
          (tokenWindow words size (i * step)).drop step =
            tokenWindow words overlap ((i + 1) * step) ∧
          ((tokenWindow words size (i * step)).drop step).length = overlap) := by
    intro hlong
    have h0 : 0 < words.length := by omega
    obtain ⟨k, hk0, heq, hlast, hmid⟩ :=
      chunkGo_spec words size step hstep1 hss words.length 0 h0 (by omega)
    have hct : chunk_text t size overlap =
        (List.range k).map (fun i => " ".intercalate (tokenWindow words size (i * step))) := by
      unfold chunk_text
      rw [← hwords, if_neg (by omega)]
      rw [heq]
      apply List.map_congr_left
      intro i _
      rw [Nat.zero_add]
    refine ⟨k, hk0, hct, fun i _ => tokenWindow_length_le words size (i * step), ?_, ?_⟩
    · -- the final window ends exactly at the last token
      have hstart_le : (k - 1) * step ≤ words.length := by
        rcases Nat.lt_or_ge k 2 with hk2 | hk2
        · have : k - 1 = 0 := by omega
          simp [this]
        · have hm := hmid (k - 2) (by omega)
          have harith : (k - 1) * step = (k - 2) * step + step := by
            have hke : k - 1 = (k - 2) + 1 := by omega
            rw [hke, Nat.succ_mul]
          omega
      have hlen : (tokenWindow words size ((k - 1) * step)).length =
          words.length - (k - 1) * step :=
        tokenWindow_length_eq words size ((k - 1) * step) (by omega)
      omega
    · -- consecutive windows share exactly `overlap` tokens
      intro i hik
      have hm := hmid i (by omega)
      have harith : (i + 1) * step = i * step + step := by rw [Nat.succ_mul]
      constructor
      · rw [tokenWindow_drop words size step (i * step) hss]
        have hov : size - step = overlap := by omega
        rw [hov, harith]
      · rw [tokenWindow_drop words size step (i * step) hss]
        have hov : size - step = overlap := by omega
        rw [hov]
        simp only [tokenWindow, List.length_take, List.length_drop]
        omega
  refine ⟨?_, ?_, main, by decide⟩
  · -- non-empty
    rcases le_or_lt words.length size with hle | hlt
    · unfold chunk_text
      rw [← hwords, if_pos hle]
      exact List.cons_ne_nil t []
    · obtain ⟨k, hk0, heq, -⟩ := main hlt
      rw [heq]
      intro hnil
      rw [List.map_eq_nil_iff] at hnil
      have : k = 0 := by
        by_contra hk
        have : (0 : ℕ) ∈ List.range k := List.mem_range.mpr (by omega)
        rw [hnil] at this
        exact absurd this (List.not_mem_nil 0)
      omega
  · -- short text: single verbatim chunk
    intro hle
    unfold chunk_text
    rw [← hwords, if_pos hle]

/-- Witness for C4 at the documented concrete input. -/
theorem C4_chunk_text_windows_witness :
    chunk_text "a b c d e f g h i j" 4 2 ≠ [] :=
  (C4_chunk_text_windows "a b c d e f g h i j" 4 2 (by decide)).1

/-! ## Temporal decay (`src/search.rs`: `apply_temporal_decay` / `parse_days_old`)

`f64` arithmetic is modelled over `ℝ`. The external chrono parse of a
`created_at` string against the two accepted formats is represented by its
result: `some d` when the string parses to a datetime `d` days in the past
(before the `.max(0)` clamp; negative for future datetimes), `none` when
unparsable. -/

/-- Result of the external chrono parse of a timestamp string. -/
abbrev ParsedAge := Option ℤ

/-- `parse_days_old`: both parse branches clamp the day difference at 0
(`.num_days().max(0)`); the unparsable fall-through returns 0. -/
def parse_days_old (parsed : ParsedAge) : ℤ :=
  match parsed with
  | some d => max d 0
  | none => 0

/-- `apply_temporal_decay`: `score * (1 - 0.15 + 0.15 * recency)` with
`recency = 1 / (1 + ln(1 + days_old))`. -/
noncomputable def apply_temporal_decay (score : ℝ) (created_at : ParsedAge) : ℝ :=
  let DECAY_STRENGTH : ℝ := 0.15
  let days_old := parse_days_old created_at
  let recency := 1 / (1 + Real.log (1 + (days_old : ℝ)))
  score * (1 - DECAY_STRENGTH + DECAY_STRENGTH * recency)

theorem parse_days_old_nonneg (p : ParsedAge) : 0 ≤ parse_days_old p := by
  cases p with
  | none => exact le_refl 0
  | some d => exact le_max_right d 0

/-- The decay multiplier sits in `(0.85, 1]`. -/
theorem decay_factor_bounds (p : ParsedAge) :
    0.85 ≤ 1 - 0.15 + 0.15 * (1 / (1 + Real.log (1 + (parse_days_old p : ℝ)))) ∧
    1 - 0.15 + 0.15 * (1 / (1 + Real.log (1 + (parse_days_old p : ℝ)))) ≤ 1 := by
  have hd : (0 : ℝ) ≤ (parse_days_old p : ℝ) := by
    exact_mod_cast parse_days_old_nonneg p
  have hL : 0 ≤ Real.log (1 + (parse_days_old p : ℝ)) :=
    Real.log_nonneg (by linarith)
  have hpos : (0 : ℝ) < 1 + Real.log (1 + (parse_days_old p : ℝ)) := by linarith
  have hrec_pos : 0 < 1 / (1 + Real.log (1 + (parse_days_old p : ℝ))) := by positivity
  have hrec_le : 1 / (1 + Real.log (1 + (parse_days_old p : ℝ))) ≤ 1 := by
    rw [div_le_one hpos]
    linarith
  constructor <;> linarith

theorem apply_temporal_decay_eq_mul (score : ℝ) (p : ParsedAge) :
    apply_temporal_decay score p =
      score * (1 - 0.15 + 0.15 * (1 / (1 + Real.log (1 + (parse_days_old p : ℝ))))) := rfl

/-- **C5.** For every nonnegative score and every timestamp, the decayed score
stays between 85% and 100% of the original; a record created at the current
instant (day difference 0) keeps its full score, and an unparsable timestamp
is treated as age 0, i.e. no decay at all. -/
theorem C5_temporal_decay_bounds :
    (∀ (r : ℝ) (ts : ParsedAge), 0 ≤ r →
      0.85 * r ≤ apply_temporal_decay r ts ∧ apply_temporal_decay r ts ≤ r) ∧
    (∀ r : ℝ, apply_temporal_decay r (some 0) = r) ∧
    (∀ r : ℝ, apply_temporal_decay r none = r) := by
  refine ⟨fun r ts hr => ?_, fun r => ?_, fun r => ?_⟩
  · obtain ⟨hlo, hhi⟩ := decay_factor_bounds ts
    rw [apply_temporal_decay_eq_mul]
    constructor
    · calc 0.85 * r = r * 0.85 := by ring
        _ ≤ r * (1 - 0.15 + 0.15 * (1 / (1 + Real.log (1 + (parse_days_old ts : ℝ))))) :=
          mul_le_mul_of_nonneg_left hlo hr
    · calc r * (1 - 0.15 + 0.15 * (1 / (1 + Real.log (1 + (parse_days_old ts : ℝ)))))
          ≤ r * 1 := mul_le_mul_of_nonneg_left hhi hr
        _ = r := mul_one r
  · rw [apply_temporal_decay_eq_mul]
    norm_num [parse_days_old, Real.log_one]
  · rw [apply_temporal_decay_eq_mul]
    norm_num [parse_days_old, Real.log_one]

/-- Witness for C5 at a concrete score and a concrete five-day age. -/
theorem C5_temporal_decay_bounds_witness :
    0.85 * 1 ≤ apply_temporal_decay 1 (some 5) ∧ apply_temporal_decay 1 (some 5) ≤ 1 :=
  C5_temporal_decay_bounds.1 1 (some 5) zero_le_one

/-! ## Store state (`src/storage.rs`: schema created by `init_db`)

One corpus is the rows of its tables. `rowid` is SQLite's integer key linking
`memories` to the external-content FTS index (`content_rowid='rowid'`).
Timestamps stay opaque strings; `datetime('now')` enters as a `now` argument,
and the SHA-256-of-`type:content:timestamp` id of `generate_id` enters as a
`freshId` argument (both are external to the pure logic). Embedding blobs are
byte lists. -/

structure MemRow where
  rowid : Nat
  id : String
  mem_type : String
  content : String
  tags : String
  created_at : String
  updated_at : String
  embedding : Option (List Nat)
deriving DecidableEq

structure ChunkRow where
  id : String
  memory_id : String
  chunk_index : Nat
  chunk_text_col : String
  embedding : Option (List Nat)
deriving DecidableEq

structure FtsRow where
  rowid : Nat
  content : String
  tags : String
deriving DecidableEq

structure Db where
  mems : List MemRow
  chunks : List ChunkRow
  fts : List FtsRow
deriving DecidableEq

/-! ## Dedup (`src/dedup.rs`: `jaccard_sim` / `find_duplicate`) -/

/-- `jaccard_sim`: word-set Jaccard similarity. The `f64` division of two
small integers is modelled exactly over `ℚ`. -/
def jaccard_sim (text_a text_b : String) : ℚ :=
  let words_a := (splitWhitespace text_a.toLower).toFinset
  let words_b := (splitWhitespace text_b.toLower).toFinset
  if words_a = ∅ ∨ words_b = ∅ then 0
  else ((words_a ∩ words_b).card : ℚ) / ((words_a ∪ words_b).card : ℚ)

/-- Token set FTS5 assigns to an indexed `(content, tags)` row, approximated
by lowercased whitespace tokenization. -/
def ftsRowTokens (content tags : String) : List String :=
  splitWhitespace content.toLower ++ splitWhitespace tags.toLower

/-- `memories_fts MATCH "<t1>" OR "<t2>" OR …`: some quoted term occurs as a
token of the row. -/
def ftsMatchTerms (terms : List String) (content tags : String) : Bool :=
  terms.any (fun t => (ftsRowTokens content tags).contains t.toLower)

/-- `find_duplicate` (`src/dedup.rs`): exact `(type, content)` match first,
then a Jaccard refinement over at most 10 FTS candidates built from the first
20 tokens of length > 2. -/
def find_duplicate (db : Db) (content : String) (mem_type : String)
    (threshold : ℚ) : Option String :=
  -- Passo 1: exact match
  match db.mems.find? (fun m => m.mem_type == mem_type && m.content == content) with
  | some m => some m.id
  | none =>
    -- Passo 2: FTS rough + Jaccard
    let tokens := (splitWhitespace content).take 20
    let fts_terms := tokens.filter (fun t => decide (2 < t.length))
    if fts_terms.isEmpty then none
    else
      let candidates := (db.fts.filterMap (fun f =>
        (db.mems.find? (fun m => m.rowid == f.rowid)).bind (fun m =>
          if m.mem_type == mem_type && ftsMatchTerms fts_terms f.content f.tags
          then some m else none))).take 10
      (candidates.find? (fun m => decide (threshold ≤ jaccard_sim content m.content))).map
        (fun m => m.id)

/-! ## Write path (`src/storage.rs`: `save_memory`; `src/main.rs`:
`memory_delete`; `src/embedding.rs`: `process_embedding_job`) -/

structure SaveResult where
  id : String
  dedup : String
deriving DecidableEq

/-- `save_memory`. The dedup-hit branch runs
`UPDATE memories SET content = ?, tags = ?, updated_at = datetime('now') WHERE id = ?`
(which fires the `memories_au` trigger rewriting the FTS row); the miss branch
runs `INSERT OR REPLACE` (which fires `memories_ai`; the implicit delete of a
replaced row fires the foreign-key cascade but, `recursive_triggers` being off,
not the delete trigger). SQLite assigns the next unused rowid. -/
def save_memory (db : Db) (now freshId mem_type content tags : String) :
    SaveResult × Db :=
  let dup : Option String :=
    if mem_type ≠ "conversation" then find_duplicate db content mem_type (0.85 : ℚ)
    else none
  match dup with
  | some existing_id =>
    (⟨existing_id, "updated"⟩,
      { db with
        mems := db.mems.map (fun m =>
          if m.id = existing_id then
            { m with content := content, tags := tags, updated_at := now }
          else m),
        fts := db.fts.map (fun f =>
          if db.mems.any (fun m => m.id == existing_id && m.rowid == f.rowid) then
            { f with content := content, tags := tags }
          else f) })
  | none =>
    let rowid := (db.mems.map MemRow.rowid).foldr max 0 + 1
    (⟨freshId, "new"⟩,
      { mems := db.mems.filter (fun m => m.id ≠ freshId) ++
          [⟨rowid, freshId, mem_type, content, tags, now, now, none⟩],
        chunks := db.chunks.filter (fun c => c.memory_id ≠ freshId),
        fts := db.fts ++ [⟨rowid, content, tags⟩] })

/-- `DELETE FROM memories WHERE id = ?` from `memory_delete`, together with the
`ON DELETE CASCADE` on `memory_chunks` and the `memories_ad` FTS trigger
declared in `init_db`. -/
def deleteMemory (db : Db) (id : String) : Db :=
  { mems := db.mems.filter (fun m => m.id ≠ id),
    chunks := db.chunks.filter (fun c => c.memory_id ≠ id),
    fts := db.fts.filter (fun f =>
      ¬ db.mems.any (fun m => m.id == id && m.rowid == f.rowid)) }

/-- `process_embedding_job` writes: set the memory's embedding blob, and when
`chunk_text(content, 400, 80)` yields more than one chunk, replace the
memory's chunk set. The per-chunk embedding (cache or Embedder) is the
external function `chunkEmb`. -/
def applyEmbeddingJob (db : Db) (record_id content : String)
    (emb : List Nat) (chunkEmb : String → List Nat) : Db :=
  let db1 := { db with
    mems := db.mems.map (fun m =>
      if m.id = record_id then { m with embedding := some emb } else m) }
  let cs := chunk_text content 400 80
  if 1 < cs.length then
    { db1 with
      chunks := db1.chunks.filter (fun c => c.memory_id ≠ record_id) ++
        ((List.range cs.length).zip cs).map (fun p =>
          ⟨record_id ++ "_c" ++ toString p.1, record_id, p.1, p.2,
            some (chunkEmb p.2)⟩) }
  else db1

theorem find_duplicate_of_exact (db : Db) (c t : String) (th : ℚ)
    (h : ∃ m ∈ db.mems, m.mem_type = t ∧ m.content = c) :
    ∃ m0 ∈ db.mems, m0.mem_type = t ∧ m0.content = c ∧
      find_duplicate db c t th = some m0.id := by
  have hsome : (db.mems.find? (fun m => m.mem_type == t && m.content == c)).isSome := by
    rw [List.find?_isSome]
    obtain ⟨m, hm, h1, h2⟩ := h
    exact ⟨m, hm, by simp [h1, h2]⟩
  obtain ⟨m0, hfind⟩ := Option.isSome_iff_exists.mp hsome
  have hm0mem := List.mem_of_find?_eq_some hfind
  have hp := List.find?_some hfind
  simp only [Bool.and_eq_true, beq_iff_eq] at hp
  refine ⟨m0, hm0mem, hp.1, hp.2, ?_⟩
  unfold find_duplicate
  rw [hfind]

theorem save_memory_update (db : Db) (now fid t c tg eid : String)
    (ht : t ≠ "conversation")
    (hdup : find_duplicate db c t (0.85 : ℚ) = some eid) :
    save_memory db now fid t c tg =
      (⟨eid, "updated"⟩,
        { db with
          mems := db.mems.map (fun m =>
            if m.id = eid then { m with content := c, tags := tg, updated_at := now }
            else m),
          fts := db.fts.map (fun f =>
            if db.mems.any (fun m => m.id == eid && m.rowid == f.rowid) then
              { f with content := c, tags := tg }
            else f) }) := by
  unfold save_memory
  rw [if_pos ht, hdup]

theorem find_duplicate_emptyDb (c t : String) (th : ℚ) :
    find_duplicate ⟨[], [], []⟩ c t th = none := by
  unfold find_duplicate
  simp

theorem save_memory_emptyDb (now fid t c tg : String) :
    save_memory ⟨[], [], []⟩ now fid t c tg =
      (⟨fid, "new"⟩, ⟨[⟨1, fid, t, c, tg, now, now, none⟩], [], [⟨1, c, tg⟩]⟩) := by
  unfold save_memory
  have hnone : (if t ≠ "conversation" then find_duplicate ⟨[], [], []⟩ c t (0.85 : ℚ)
      else none) = none := by
    split
    · exact find_duplicate_emptyDb c t (0.85 : ℚ)
    · rfl
  rw [hnone]
  rfl

/-- **C1 (amended).** For a non-conversation save on which `find_duplicate`
reports a hit, `save_memory` overwrites the found record's content and tags,
refreshes `updated_at`, reports `dedup="updated"` with the existing id, and
leaves every other memory row and all chunk rows unchanged — but it does NOT
clear the record's embedding: the `UPDATE` statement never touches the
`embedding` column, so the stale vector remains. -/
theorem C1_dedup_update_amended :
    ∀ (db : Db) (now fid t c tg eid : String),
      t ≠ "conversation" →
      find_duplicate db c t (0.85 : ℚ) = some eid →
      (save_memory db now fid t c tg).1 = ⟨eid, "updated"⟩ ∧
      (save_memory db now fid t c tg).2.chunks = db.chunks ∧
      (save_memory db now fid t c tg).2.mems.length = db.mems.length ∧
      ∀ (i : Nat) (h1 : i < db.mems.length)
        (h2 : i < (save_memory db now fid t c tg).2.mems.length),
        ((db.mems.get ⟨i, h1⟩).id ≠ eid →
          (save_memory db now fid t c tg).2.mems.get ⟨i, h2⟩ = db.mems.get ⟨i, h1⟩) ∧
        ((db.mems.get ⟨i, h1⟩).id = eid →
          ((save_memory db now fid t c tg).2.mems.get ⟨i, h2⟩).content = c ∧
          ((save_memory db now fid t c tg).2.mems.get ⟨i, h2⟩).tags = tg ∧
          ((save_memory db now fid t c tg).2.mems.get ⟨i, h2⟩).updated_at = now ∧
          ((save_memory db now fid t c tg).2.mems.get ⟨i, h2⟩).embedding =
            (db.mems.get ⟨i, h1⟩).embedding ∧
          ((save_memory db now fid t c tg).2.mems.get ⟨i, h2⟩).id =
            (db.mems.get ⟨i, h1⟩).id ∧
          ((save_memory db now fid t c tg).2.mems.get ⟨i, h2⟩).created_at =
            (db.mems.get ⟨i, h1⟩).created_at) := by
  intro db now fid t c tg eid ht hdup
  rw [save_memory_update db now fid t c tg eid ht hdup]
  refine ⟨rfl, rfl, by simp, ?_⟩
  intro i h1 h2
  constructor
  · intro hne
    simp only [List.get_eq_getElem, List.getElem_map]
    rw [if_neg (by simpa using hne)]
  · intro heq
    simp only [List.get_eq_getElem, List.getElem_map]
    rw [if_pos (by simpa using heq)]
    exact ⟨rfl, rfl, rfl, rfl, rfl, rfl⟩

/-- Witness for C1 (amended) at a concrete store with one exact duplicate. -/
theorem C1_dedup_update_amended_witness :
    (save_memory ⟨[⟨1, "w1", "note", "hello world", "", "t0", "t0", some [9]⟩], [],
        [⟨1, "hello world", ""⟩]⟩ "t1" "f" "note" "hello world" "x").1 =
      ⟨"w1", "updated"⟩ :=
  (C1_dedup_update_amended
    ⟨[⟨1, "w1", "note", "hello world", "", "t0", "t0", some [9]⟩], [],
      [⟨1, "hello world", ""⟩]⟩ "t1" "f" "note" "hello world" "x" "w1"
    (by decide) (by decide)).1

/-- Counterexample to C1 as stated: on a dedup hit the found record's
embedding is NOT set to NULL — the updated row keeps its old vector. -/
theorem C1_dedup_update_counterexample :
    (save_memory ⟨[⟨1, "m1", "decision", "Use SQLite for persistence", "db",
        "t0", "t0", some [1, 2, 3, 4]⟩], [],
        [⟨1, "Use SQLite for persistence", "db"⟩]⟩
      "t1" "fresh" "decision" "Use SQLite for persistence" "newtags").1.dedup =
      "updated" ∧
    ¬ (∀ m ∈ (save_memory ⟨[⟨1, "m1", "decision", "Use SQLite for persistence", "db",
        "t0", "t0", some [1, 2, 3, 4]⟩], [],
        [⟨1, "Use SQLite for persistence", "db"⟩]⟩
      "t1" "fresh" "decision" "Use SQLite for persistence" "newtags").2.mems,
        m.id = "m1" → m.embedding = none) := by
  decide

/-- **C2.** Saving a non-conversation record whose exact `(type, content)`
already exists is idempotent on the row set: the save reports
`dedup="updated"` with the id of an existing record of that `(type, content)`
and the number of memory rows does not grow; in particular two successive
identical saves starting from an empty corpus leave exactly one row, the
second reporting `dedup="updated"`. -/
theorem C2_save_idempotent :
    (∀ (db : Db) (now fid t c tg : String), t ≠ "conversation" →
      (∃ m ∈ db.mems, m.mem_type = t ∧ m.content = c) →
      (save_memory db now fid t c tg).1.dedup = "updated" ∧
      (∃ m ∈ db.mems, m.id = (save_memory db now fid t c tg).1.id ∧
        m.mem_type = t ∧ m.content = c) ∧
      (save_memory db now fid t c tg).2.mems.length = db.mems.length) ∧
    (∀ (now1 now2 fid1 fid2 t c tg1 tg2 : String), t ≠ "conversation" →
      (save_memory ⟨[], [], []⟩ now1 fid1 t c tg1).2.mems.length = 1 ∧
      (save_memory (save_memory ⟨[], [], []⟩ now1 fid1 t c tg1).2
        now2 fid2 t c tg2).1.dedup = "updated" ∧
      (save_memory (save_memory ⟨[], [], []⟩ now1 fid1 t c tg1).2
        now2 fid2 t c tg2).2.mems.length = 1) := by
  have part1 : ∀ (db : Db) (now fid t c tg : String), t ≠ "conversation" →
      (∃ m ∈ db.mems, m.mem_type = t ∧ m.content = c) →
      (save_memory db now fid t c tg).1.dedup = "updated" ∧
      (∃ m ∈ db.mems, m.id = (save_memory db now fid t c tg).1.id ∧
        m.mem_type = t ∧ m.content = c) ∧
      (save_memory db now fid t c tg).2.mems.length = db.mems.length := by
    intro db now fid t c tg ht hex
    obtain ⟨m0, hm0, htype, hcontent, hdup⟩ :=
      find_duplicate_of_exact db c t (0.85 : ℚ) hex
    rw [save_memory_update db now fid t c tg m0.id ht hdup]
    exact ⟨rfl, ⟨m0, hm0, rfl, htype, hcontent⟩, by simp⟩
  refine ⟨part1, ?_⟩
  intro now1 now2 fid1 fid2 t c tg1 tg2 ht
  rw [save_memory_emptyDb now1 fid1 t c tg1]
  have hex : ∃ m ∈ (⟨[⟨1, fid1, t, c, tg1, now1, now1, none⟩], [],
      [⟨1, c, tg1⟩]⟩ : Db).mems, m.mem_type = t ∧ m.content = c :=
    ⟨⟨1, fid1, t, c, tg1, now1, now1, none⟩, List.mem_singleton.mpr rfl, rfl, rfl⟩
  obtain ⟨hd, -, hlen⟩ := part1 _ now2 fid2 t c tg2 ht hex
  exact ⟨rfl, hd, hlen⟩

/-- Witness for C2 at a concrete pair of identical saves from an empty corpus. -/
theorem C2_save_idempotent_witness :
    (save_memory (save_memory ⟨[], [], []⟩ "t1" "f1" "note" "hello" "").2
      "t2" "f2" "note" "hello" "").1.dedup = "updated" :=
  (C2_save_idempotent.2 "t1" "t2" "f1" "f2" "note" "hello" "" "" (by decide)).2.1

/-! ## No-orphan invariant (schema of `init_db`: FTS triggers and FK cascade) -/

/-- Well-formedness declared by the schema: unique rowids, the FTS index
mirrors `memories` row for row (same rowid, same indexed columns), and every
chunk's `memory_id` resolves. -/
abbrev DbWf (db : Db) : Prop :=
  (db.mems.map MemRow.rowid).Nodup ∧
  (db.fts.map FtsRow.rowid).Nodup ∧
  (∀ m ∈ db.mems, ∃ f ∈ db.fts,
    f.rowid = m.rowid ∧ f.content = m.content ∧ f.tags = m.tags) ∧
  (∀ f ∈ db.fts, ∃ m ∈ db.mems, m.rowid = f.rowid) ∧
  (∀ c ∈ db.chunks, ∃ m ∈ db.mems, m.id = c.memory_id)

theorem mem_rowid_inj (db : Db) (h : (db.mems.map MemRow.rowid).Nodup) :
    ∀ m ∈ db.mems, ∀ m2 ∈ db.mems, m.rowid = m2.rowid → m = m2 :=
  fun _ hm _ hm2 he => List.inj_on_of_nodup_map h hm hm2 he

theorem deleteMemory_mem_iff (db : Db) (id : String) (m : MemRow) :
    m ∈ (deleteMemory db id).mems ↔ m ∈ db.mems ∧ m.id ≠ id := by
  simp [deleteMemory, List.mem_filter]

theorem deleteMemory_chunk_iff (db : Db) (id : String) (c : ChunkRow) :
    c ∈ (deleteMemory db id).chunks ↔ c ∈ db.chunks ∧ c.memory_id ≠ id := by
  simp [deleteMemory, List.mem_filter]

theorem deleteMemory_fts_iff (db : Db) (id : String) (f : FtsRow) :
    f ∈ (deleteMemory db id).fts ↔
      f ∈ db.fts ∧ ∀ m ∈ db.mems, m.id = id → m.rowid ≠ f.rowid := by
  simp only [deleteMemory, List.mem_filter, decide_eq_true_eq, List.any_eq_true,
    Bool.and_eq_true, beq_iff_eq]
  constructor
  · rintro ⟨hf, hno⟩
    exact ⟨hf, fun m hm hid hr => hno ⟨m, hm, hid, hr⟩⟩
  · rintro ⟨hf, hno⟩
    exact ⟨hf, fun ⟨m, hm, hid, hr⟩ => hno m hm hid hr⟩

theorem DbWf_deleteMemory (db : Db) (id : String) (h : DbWf db) :
    DbWf (deleteMemory db id) := by
  obtain ⟨h1, h2, h3, h4, h5⟩ := h
  refine ⟨?_, ?_, ?_, ?_, ?_⟩
  · exact List.Nodup.sublist ((List.filter_sublist _).map MemRow.rowid) h1
  · exact List.Nodup.sublist ((List.filter_sublist _).map FtsRow.rowid) h2
  · intro m hm
    rw [deleteMemory_mem_iff] at hm
    obtain ⟨hmem, hmid⟩ := hm
    obtain ⟨f, hf, hfr, hfc, hft⟩ := h3 m hmem
    refine ⟨f, ?_, hfr, hfc, hft⟩
    rw [deleteMemory_fts_iff]
    refine ⟨hf, fun m2 hm2 hid2 hr2 => ?_⟩
    have : m2 = m := mem_rowid_inj db h1 m2 hm2 m hmem (by rw [hr2, hfr])
    exact hmid (this ▸ hid2)
  · intro f hf
    rw [deleteMemory_fts_iff] at hf
    obtain ⟨hfmem, hno⟩ := hf
    obtain ⟨m, hm, hmr⟩ := h4 f hfmem
    refine ⟨m, ?_, hmr⟩
    rw [deleteMemory_mem_iff]
    exact ⟨hm, fun hid => hno m hm hid hmr⟩
  · intro c hc
    rw [deleteMemory_chunk_iff] at hc
    obtain ⟨hcmem, hcid⟩ := hc
    obtain ⟨m, hm, hmid⟩ := h5 c hcmem
    refine ⟨m, ?_, hmid⟩
    rw [deleteMemory_mem_iff]
    exact ⟨hm, fun hid => hcid (hmid ▸ hid)⟩

theorem mem_le_foldr_max (l : List Nat) : ∀ x ∈ l, x ≤ l.foldr max 0 := by
  induction l with
  | nil => simp
  | cons a l ih =>
    intro x hx
    rcases List.mem_cons.mp hx with rfl | hx
    · exact le_max_left _ _
    · exact le_trans (ih x hx) (le_max_right _ _)

theorem map_rowid_of_preserve (l : List MemRow) (g : MemRow → MemRow)
    (hg : ∀ m, (g m).rowid = m.rowid) :
    (l.map g).map MemRow.rowid = l.map MemRow.rowid := by
  rw [List.map_map]
  exact List.map_congr_left fun m _ => hg m

theorem map_frowid_of_preserve (l : List FtsRow) (g : FtsRow → FtsRow)
    (hg : ∀ f, (g f).rowid = f.rowid) :
    (l.map g).map FtsRow.rowid = l.map FtsRow.rowid := by
  rw [List.map_map]
  exact List.map_congr_left fun f _ => hg f

theorem DbWf_save_memory (db : Db) (now fid t c tg : String) (h : DbWf db)
    (hfresh : ∀ m ∈ db.mems, m.id ≠ fid) :
    DbWf (save_memory db now fid t c tg).2 := by
  obtain ⟨h1, h2, h3, h4, h5⟩ := h
  rcases hif : (if t ≠ "conversation" then find_duplicate db c t (0.85 : ℚ) else none)
    with _ | eid
  · -- insert branch
    simp only [save_memory, hif]
    have hfilter : db.mems.filter (fun m => decide (m.id ≠ fid)) = db.mems :=
      List.filter_eq_self.mpr fun m hm => by simpa using hfresh m hm
    have hchunkfilter : db.chunks.filter (fun ch => decide (ch.memory_id ≠ fid)) =
        db.chunks := by
      refine List.filter_eq_self.mpr fun ch hch => ?_
      obtain ⟨m, hm, hmid⟩ := h5 ch hch
      simpa using (hmid ▸ hfresh m hm)
    have hnotin : (db.mems.map MemRow.rowid).foldr max 0 + 1 ∉
        db.mems.map MemRow.rowid := by
      intro hmem
      have := mem_le_foldr_max (db.mems.map MemRow.rowid) _ hmem
      omega
    refine ⟨?_, ?_, ?_, ?_, ?_⟩
    · rw [hfilter, List.map_append]
      rw [List.nodup_append]
      refine ⟨h1, List.nodup_singleton _, ?_⟩
      intro x hx hsing
      rw [List.map_singleton, List.mem_singleton] at hsing
      subst hsing
      exact hnotin hx
    · rw [List.map_append, List.nodup_append]
      refine ⟨h2, List.nodup_singleton _, ?_⟩
      intro x hx hsing
      rw [List.map_singleton, List.mem_singleton] at hsing
      subst hsing
      apply hnotin
      obtain ⟨f, hf, hfr⟩ := List.mem_map.mp hx
      obtain ⟨m, hm, hmr⟩ := h4 f hf
      exact List.mem_map.mpr ⟨m, hm, by rw [hmr, hfr]⟩
    · intro m hm
      rw [hfilter] at hm
      rcases List.mem_append.mp hm with hold | hnew
      · obtain ⟨f, hf, hfp⟩ := h3 m hold
        exact ⟨f, List.mem_append_left _ hf, hfp⟩
      · rw [List.mem_singleton] at hnew
        subst hnew
        exact ⟨⟨(db.mems.map MemRow.rowid).foldr max 0 + 1, c, tg⟩,
          List.mem_append_right _ (List.mem_singleton.mpr rfl), rfl, rfl, rfl⟩
    · intro f hf
      rcases List.mem_append.mp hf with hold | hnew
      · obtain ⟨m, hm, hmr⟩ := h4 f hold
        rw [hfilter]
        exact ⟨m, List.mem_append_left _ hm, hmr⟩
      · rw [List.mem_singleton] at hnew
        subst hnew
        rw [hfilter]
        exact ⟨⟨(db.mems.map MemRow.rowid).foldr max 0 + 1, fid, t, c, tg, now, now,
          none⟩, List.mem_append_right _ (List.mem_singleton.mpr rfl), rfl⟩
    · intro ch hch
      rw [hchunkfilter] at hch
      obtain ⟨m, hm, hmid⟩ := h5 ch hch
      rw [hfilter]
      exact ⟨m, List.mem_append_left _ hm, hmid⟩
  · -- update branch
    simp only [save_memory, hif]
    set g : MemRow → MemRow := fun m =>
      if m.id = eid then { m with content := c, tags := tg, updated_at := now } else m
      with hg
    set gf : FtsRow → FtsRow := fun f =>
      if db.mems.any (fun m => m.id == eid && m.rowid == f.rowid) then
        { f with content := c, tags := tg }
      else f
      with hgf
    have hgrow : ∀ m, (g m).rowid = m.rowid := by
      intro m; rw [hg]; dsimp only; split <;> rfl
    have hgid : ∀ m, (g m).id = m.id := by
      intro m; rw [hg]; dsimp only; split <;> rfl
    have hgfrow : ∀ f, (gf f).rowid = f.rowid := by
      intro f; rw [hgf]; dsimp only; split <;> rfl
    refine ⟨?_, ?_, ?_, ?_, ?_⟩
    · rw [map_rowid_of_preserve _ g hgrow]; exact h1
    · rw [map_frowid_of_preserve _ gf hgfrow]; exact h2
    · intro m' hm'
      obtain ⟨m, hm, rfl⟩ := List.mem_map.mp hm'
      obtain ⟨f, hf, hfr, hfc, hft⟩ := h3 m hm
      refine ⟨gf f, List.mem_map_of_mem gf hf, ?_⟩
      by_cases hid : m.id = eid
      · have hcond : (db.mems.any fun m2 => m2.id == eid && m2.rowid == f.rowid) =
            true := by
          rw [List.any_eq_true]
          exact ⟨m, hm, by simp [hid, hfr]⟩
        rw [hg, hgf]
        dsimp only
        rw [if_pos hid, if_pos hcond]
        exact ⟨hfr, rfl, rfl⟩
      · have hcond : ¬ (db.mems.any fun m2 => m2.id == eid && m2.rowid == f.rowid) =
            true := by
          rw [List.any_eq_true]
          rintro ⟨m2, hm2, hp⟩
          simp only [Bool.and_eq_true, beq_iff_eq] at hp
          have : m2 = m := mem_rowid_inj db h1 m2 hm2 m hm (by rw [hp.2, hfr])
          exact hid (this ▸ hp.1)
        rw [hg, hgf]
        dsimp only
        rw [if_neg hid, if_neg hcond]
        exact ⟨hfr, hfc, hft⟩
    · intro f' hf'
      obtain ⟨f, hf, rfl⟩ := List.mem_map.mp hf'
      obtain ⟨m, hm, hmr⟩ := h4 f hf
      exact ⟨g m, List.mem_map_of_mem g hm, by rw [hgrow m, hgfrow f, hmr]⟩
    · intro ch hch
      obtain ⟨m, hm, hmid⟩ := h5 ch hch
      exact ⟨g m, List.mem_map_of_mem g hm, by rw [hgid m, hmid]⟩

theorem DbWf_applyEmbeddingJob (db : Db) (rid content : String) (emb : List Nat)
    (chunkEmb : String → List Nat) (h : DbWf db)
    (hrid : ∃ m ∈ db.mems, m.id = rid) :
    DbWf (applyEmbeddingJob db rid content emb chunkEmb) := by
  obtain ⟨h1, h2, h3, h4, h5⟩ := h
  set g : MemRow → MemRow := fun m =>
    if m.id = rid then { m with embedding := some emb } else m
    with hg
  have hgrow : ∀ m, (g m).rowid = m.rowid := by
    intro m; rw [hg]; dsimp only; split <;> rfl
  have hgid : ∀ m, (g m).id = m.id := by
    intro m; rw [hg]; dsimp only; split <;> rfl
  have hgc : ∀ m, (g m).content = m.content := by
    intro m; rw [hg]; dsimp only; split <;> rfl
  have hgt : ∀ m, (g m).tags = m.tags := by
    intro m; rw [hg]; dsimp only; split <;> rfl
  have hmems : ∀ m' ∈ db.mems.map g, ∃ f ∈ db.fts,
      f.rowid = m'.rowid ∧ f.content = m'.content ∧ f.tags = m'.tags := by
    intro m' hm'
    obtain ⟨m, hm, rfl⟩ := List.mem_map.mp hm'
    obtain ⟨f, hf, hfr, hfc, hft⟩ := h3 m hm
    exact ⟨f, hf, by rw [hgrow]; exact hfr, by rw [hgc]; exact hfc, by rw [hgt]; exact hft⟩
  have hfts : ∀ f ∈ db.fts, ∃ m' ∈ db.mems.map g, m'.rowid = f.rowid := by
    intro f hf
    obtain ⟨m, hm, hmr⟩ := h4 f hf
    exact ⟨g m, List.mem_map_of_mem g hm, by rw [hgrow]; exact hmr⟩
  have hnodup : ((db.mems.map g).map MemRow.rowid).Nodup := by
    rw [map_rowid_of_preserve _ g hgrow]; exact h1
  simp only [applyEmbeddingJob]
  split
  · refine ⟨hnodup, h2, hmems, hfts, ?_⟩
    intro ch hch
    rcases List.mem_append.mp hch with hold | hnew
    · rw [List.mem_filter] at hold
      obtain ⟨m, hm, hmid⟩ := h5 ch hold.1
      exact ⟨g m, List.mem_map_of_mem g hm, by rw [hgid]; exact hmid⟩
    · obtain ⟨p, _, rfl⟩ := List.mem_map.mp hnew
      obtain ⟨m, hm, hmid⟩ := hrid
      exact ⟨g m, List.mem_map_of_mem g hm, by rw [hgid]; exact hmid⟩
  · refine ⟨hnodup, h2, hmems, hfts, ?_⟩
    intro ch hch
    obtain ⟨m, hm, hmid⟩ := h5 ch hch
    exact ⟨g m, List.mem_map_of_mem g hm, by rw [hgid]; exact hmid⟩

/-- **C8.** After `delete(id)` no memory row, no chunk row, and no FTS row for
that id remain (the FK cascade and the `memories_ad` trigger fire on every
memory deletion), and the no-orphan invariant `DbWf` — FTS rows ≡ memory rows,
every chunk's `memory_id` resolves — is preserved by delete, by save (with a
freshly minted id), and by the embed worker's writes. -/
theorem C8_delete_no_orphans :
    (∀ (db : Db) (id : String),
      (∀ m ∈ (deleteMemory db id).mems, m.id ≠ id) ∧
      (∀ c ∈ (deleteMemory db id).chunks, c.memory_id ≠ id) ∧
      (∀ m ∈ db.mems, m.id = id → ∀ f ∈ (deleteMemory db id).fts, f.rowid ≠ m.rowid) ∧
      (DbWf db → DbWf (deleteMemory db id))) ∧
    (∀ (db : Db) (now fid t c tg : String), DbWf db → (∀ m ∈ db.mems, m.id ≠ fid) →
      DbWf (save_memory db now fid t c tg).2) ∧
    (∀ (db : Db) (rid content : String) (emb : List Nat)
      (chunkEmb : String → List Nat), DbWf db → (∃ m ∈ db.mems, m.id = rid) →
      DbWf (applyEmbeddingJob db rid content emb chunkEmb)) := by
  refine ⟨fun db id => ⟨?_, ?_, ?_, DbWf_deleteMemory db id⟩,
    DbWf_save_memory, DbWf_applyEmbeddingJob⟩
  · exact fun m hm => ((deleteMemory_mem_iff db id m).mp hm).2
  · exact fun c hc => ((deleteMemory_chunk_iff db id c).mp hc).2
  · intro m hm hid f hf
    obtain ⟨-, hno⟩ := (deleteMemory_fts_iff db id f).mp hf
    exact fun he => hno m hm hid he.symm

/-- Witness for C8 at a concrete store: deleting the only memory leaves a
well-formed store (and the hypotheses of all three parts are dischargeable). -/
theorem C8_delete_no_orphans_witness :
    DbWf (deleteMemory ⟨[⟨1, "m1", "note", "x", "", "t", "t", none⟩],
      [⟨"m1_c0", "m1", 0, "x", some [0]⟩], [⟨1, "x", ""⟩]⟩ "m1") :=
  (C8_delete_no_orphans.1 ⟨[⟨1, "m1", "note", "x", "", "t", "t", none⟩],
    [⟨"m1_c0", "m1", 0, "x", some [0]⟩], [⟨1, "x", ""⟩]⟩ "m1").2.2.2 (by decide)

/-! ## Scope resolution (`src/storage.rs`: `resolve_scope_dbs`,
`MemoryPaths::project_db_path`; `src/main.rs`: `MemoryServer::resolve_save_db`)

Filesystem paths are opaque strings. `project_db_path` reads
`MCP_PROJECT_DIR`/`CLAUDE_CWD` or falls back to the current directory; the
resolved base directory enters as the `cwdOrEnv` argument, so the function
always returns `some`. -/

structure MemoryPaths where
  global_db : String
  personality_db : String
deriving DecidableEq

/-- `MemoryPaths::project_db_path`. -/
def project_db_path (cwdOrEnv : String) : Option String :=
  some (cwdOrEnv ++ "/.mcp-memoria/project.db")

/-- `resolve_scope_dbs`: scope → ordered list of `(name, path)`. The Rust
`match` on the scope string is an if-chain with a catch-all `_ => vec![]`. -/
def resolve_scope_dbs (scope : String) (paths : MemoryPaths) (cwdOrEnv : String) :
    List (String × String) :=
  if scope = "global" then [("global", paths.global_db)]
  else if scope = "project" then
    match project_db_path cwdOrEnv with
    | some p => [("project", p)]
    | none => []
  else if scope = "personality" then [("personality", paths.personality_db)]
  else if scope = "both" then
    [("global", paths.global_db)] ++
      (match project_db_path cwdOrEnv with
       | some p => [("project", p)]
       | none => [])
  else if scope = "all" then
    [("global", paths.global_db), ("personality", paths.personality_db)] ++
      (match project_db_path cwdOrEnv with
       | some p => [("project", p)]
       | none => [])
  else []

/-- `MemoryServer::resolve_save_db`: the catch-all arm is
`_ => Some(self.paths.personality_db.clone())`. -/
def resolve_save_db (scope : String) (paths : MemoryPaths) (cwdOrEnv : String) :
    Option String :=
  if scope = "global" then some paths.global_db
  else if scope = "personality" then some paths.personality_db
  else if scope = "project" then project_db_path cwdOrEnv
  else some paths.personality_db

/-- Counterexample to C9 as stated: an unknown scope does not make the
save/delete/compact path report an error and touch nothing — `resolve_save_db`
resolves it to the personality corpus, which is then read and written. -/
theorem C9_unknown_scope_counterexample :
    ¬ (∀ (scope : String) (paths : MemoryPaths) (cwdOrEnv : String),
        scope ∉ ["global", "personality", "project", "both", "all"] →
        resolve_save_db scope paths cwdOrEnv = none) := by
  intro hclaim
  have := hclaim "bogus" ⟨"g.db", "p.db"⟩ "cwd" (by decide)
  simp [resolve_save_db] at this

/-- **C9 (amended).** For every scope outside the documented vocabulary,
`resolve_scope_dbs` (search/list/reindex fan-out) resolves to no corpus at
all, while `resolve_save_db` (save/delete/compact) silently falls back to the
personality corpus instead of reporting an error. -/
theorem C9_unknown_scope_amended :
    ∀ (scope : String) (paths : MemoryPaths) (cwdOrEnv : String),
      scope ∉ ["global", "personality", "project", "both", "all"] →
      resolve_scope_dbs scope paths cwdOrEnv = [] ∧
      resolve_save_db scope paths cwdOrEnv = some paths.personality_db := by
  intro scope paths cwdOrEnv hscope
  simp only [List.mem_cons, List.mem_singleton, not_or] at hscope
  obtain ⟨hg, hp, hpr, hb, ha⟩ := hscope
  constructor
  · unfold resolve_scope_dbs
    rw [if_neg hg, if_neg hpr, if_neg hp, if_neg hb, if_neg ha.1]
  · unfold resolve_save_db
    rw [if_neg hg, if_neg hp, if_neg hpr]

/-- Witness for C9 (amended) at a concrete unknown scope. -/
theorem C9_unknown_scope_amended_witness :
    resolve_scope_dbs "bogus" ⟨"g.db", "p.db"⟩ "cwd" = [] ∧
    resolve_save_db "bogus" ⟨"g.db", "p.db"⟩ "cwd" = some "p.db" :=
  C9_unknown_scope_amended "bogus" ⟨"g.db", "p.db"⟩ "cwd" (by decide)

/-! ## Personality tag augmentation (`src/main.rs`: `memory_save`)

The environment lookup `MCP_PROJECT_DIR`/`CLAUDE_CWD` enters as the `envDir`
argument. `Path::file_name` is modelled over slash-separated components
(empty and `.` components are normalized away; a trailing `..` has no file
name). Rust's substring `str::contains` is modelled over character lists. -/

/-- Path-component splitter (splits on `/`, drops empty components). -/
def slashTokensAux : List Char → List Char → List String
  | [], acc => if acc.isEmpty then [] else [String.mk acc.reverse]
  | c :: cs, acc =>
    if c = '/' then
      if acc.isEmpty then slashTokensAux cs []
      else String.mk acc.reverse :: slashTokensAux cs []
    else slashTokensAux cs (c :: acc)

/-- `Path::file_name` of the env-provided directory. -/
def fileName (p : String) : Option String :=
  let comps := (slashTokensAux p.toList []).filter (fun comp => decide (comp ≠ "."))
  match comps.getLast? with
  | none => none
  | some comp => if comp = ".." then none else some comp

/-- `pat` is a prefix of `l`. -/
def leadsWith : List Char → List Char → Bool
  | [], _ => true
  | _ :: _, [] => false
  | p :: ps, c :: cs => p == c && leadsWith ps cs

/-- `pat` occurs as a contiguous sublist of `l`. -/
def hasSubList (pat : List Char) : List Char → Bool
  | [] => leadsWith pat []
  | c :: cs => leadsWith pat (c :: cs) || hasSubList pat cs

/-- Rust `hay.contains(&pat)` (substring test). -/
def strContains (hay pat : String) : Bool := hasSubList pat.toList hay.toList

/-- The project-name selection of `memory_save`: the `project_name` argument
if non-empty, else the basename of the env directory, else `"no-project"`. -/
def projectNameFor (project_name : String) (envDir : Option String) : String :=
  if project_name.isEmpty then (envDir.bind fileName).getD "no-project"
  else project_name

/-- The tag rewrite of `memory_save`: only for `scope == "personality"`, append
the project name to the comma-joined tags unless it is already a substring. -/
def memory_save_tags (scope tags project_name : String) (envDir : Option String) :
    String :=
  if scope = "personality" then
    let pn := projectNameFor project_name envDir
    if !pn.isEmpty && !strContains tags pn then
      if tags.isEmpty then pn else tags ++ "," ++ pn
    else tags
  else tags

theorem mk_reverse_ne_empty (acc : List Char) (h : acc.isEmpty = false) :
    String.mk acc.reverse ≠ "" := by
  intro he
  rw [String.ext_iff] at he
  have hd : (String.mk acc.reverse).data = acc.reverse := rfl
  have hn : ("" : String).data = [] := rfl
  rw [hd, hn, List.reverse_eq_nil_iff] at he
  rw [he] at h
  simp at h

theorem slashTokens_ne_empty :
    ∀ (cs acc : List Char), ∀ t ∈ slashTokensAux cs acc, t ≠ "" := by
  intro cs
  induction cs with
  | nil =>
    intro acc t ht
    unfold slashTokensAux at ht
    rcases hacc : acc.isEmpty with _ | _
    · rw [hacc] at ht
      simp only [Bool.false_eq_true, if_false, List.mem_singleton] at ht
      subst ht
      exact mk_reverse_ne_empty acc hacc
    · rw [hacc] at ht
      simp at ht
  | cons c cs ih =>
    intro acc t ht
    unfold slashTokensAux at ht
    by_cases hc : c = '/'
    · rw [if_pos hc] at ht
      rcases hacc : acc.isEmpty with _ | _
      · rw [hacc] at ht
        simp only [Bool.false_eq_true, if_false, List.mem_cons] at ht
        rcases ht with rfl | ht
        · exact mk_reverse_ne_empty acc hacc
        · exact ih [] t ht
      · rw [hacc] at ht
        simp only [if_true] at ht
        exact ih [] t ht
    · rw [if_neg hc] at ht
      exact ih (c :: acc) t ht

theorem fileName_ne_empty (p : String) (c : String) (h : fileName p = some c) :
    c ≠ "" := by
  simp only [fileName] at h
  rcases hlast : ((slashTokensAux p.toList []).filter
      (fun comp => decide (comp ≠ "."))).getLast? with _ | comp
  · rw [hlast] at h
    have h2 : (none : Option String) = some c := h
    exact absurd h2 (by simp)
  · rw [hlast] at h
    have h2 : (if comp = ".." then none else some comp : Option String) = some c := h
    have hmem : comp ∈ (slashTokensAux p.toList []).filter
        (fun comp2 => decide (comp2 ≠ ".")) := by
      obtain ⟨hne, heq⟩ := List.mem_getLast?_eq_getLast (l := _) (x := comp)
        (by rw [hlast]; rfl)
      rw [heq]
      exact List.getLast_mem hne
    have hc : comp ≠ "" :=
      slashTokens_ne_empty p.toList [] comp (List.mem_filter.mp hmem).1
    by_cases hdd : comp = ".."
    · rw [if_pos hdd] at h2
      simp at h2
    · rw [if_neg hdd] at h2
      simp only [Option.some.injEq] at h2
      exact h2 ▸ hc

theorem projectNameFor_ne_empty (pn : String) (envDir : Option String) :
    projectNameFor pn envDir ≠ "" := by
  unfold projectNameFor
  rcases hpn : pn.isEmpty with _ | _
  · rw [if_neg Bool.false_ne_true]
    intro he
    rw [he] at hpn
    exact absurd hpn (by decide)
  · rw [if_pos rfl]
    rcases hbind : envDir.bind fileName with _ | c
    · simp [Option.getD]
    · simp only [Option.getD_some]
      obtain ⟨d, -, hfn⟩ := Option.bind_eq_some.mp hbind
      exact fileName_ne_empty d c hfn

/-- **C10.** Only `scope="personality"` rewrites the caller's tags: the
selected project name (the `project_name` argument if non-empty, else the
basename of `MCP_PROJECT_DIR`/`CLAUDE_CWD`, else `"no-project"`) is never
empty and is appended to the comma-joined tags exactly when it is not already
a substring of them; every other scope stores the caller's tags verbatim. -/
theorem C10_personality_tags :
    (∀ (scope tags pn : String) (envDir : Option String), scope ≠ "personality" →
      memory_save_tags scope tags pn envDir = tags) ∧
    (∀ (tags pn : String) (envDir : Option String),
      projectNameFor pn envDir ≠ "" ∧
      (pn ≠ "" → projectNameFor pn envDir = pn) ∧
      (pn = "" → projectNameFor pn envDir = (envDir.bind fileName).getD "no-project") ∧
      (strContains tags (projectNameFor pn envDir) = true →
        memory_save_tags "personality" tags pn envDir = tags) ∧
      (strContains tags (projectNameFor pn envDir) = false →
        memory_save_tags "personality" tags pn envDir =
          (if tags = "" then projectNameFor pn envDir
           else tags ++ "," ++ projectNameFor pn envDir))) := by
  constructor
  · intro scope tags pn envDir hscope
    unfold memory_save_tags
    rw [if_neg hscope]
  · intro tags pn envDir
    refine ⟨projectNameFor_ne_empty pn envDir, ?_, ?_, ?_, ?_⟩
    · intro hne
      unfold projectNameFor
      rw [if_neg (fun hb => hne ((String.isEmpty_iff pn).mp hb))]
    · intro he
      unfold projectNameFor
      rw [if_pos ((String.isEmpty_iff pn).mpr he)]
    · intro hcont
      unfold memory_save_tags
      rw [if_pos rfl]
      simp only [hcont, Bool.not_true, Bool.and_false, Bool.false_eq_true, if_false]
    · intro hcont
      unfold memory_save_tags
      rw [if_pos rfl]
      have hpe : (projectNameFor pn envDir).isEmpty = false := by
        rw [← Bool.not_eq_true, String.isEmpty_iff]
        exact projectNameFor_ne_empty pn envDir
      simp only [hcont, hpe, Bool.not_false, Bool.and_true, if_true]
      by_cases ht : tags = ""
      · rw [if_pos ((String.isEmpty_iff tags).mpr ht), if_pos ht]
      · rw [if_neg (fun hb => ht ((String.isEmpty_iff tags).mp hb)), if_neg ht]

/-- Witness for C10: a non-personality scope keeps tags verbatim, and a
personality save appends the project basename when absent. -/
theorem C10_personality_tags_witness :
    memory_save_tags "global" "a,b" "proj" none = "a,b" ∧
    memory_save_tags "personality" "a,b" "" (some "/home/u/myrepo") =
      "a,b" ++ "," ++ projectNameFor "" (some "/home/u/myrepo") :=
  ⟨C10_personality_tags.1 "global" "a,b" "proj" none (by decide),
   by
    have h := (C10_personality_tags.2 "a,b" "" (some "/home/u/myrepo")).2.2.2.2
      (by decide)
    rw [if_neg (by decide)] at h
    exact h⟩

/-! ## Ranker (`src/search.rs`)

Rows are the result sets of the SQL scans (the engine applies the `WHERE`
clauses and, for FTS, `MATCH`/`ORDER BY bm25`/`LIMIT 3·limit`); stored
embedding blobs are carried as their decoded `ℝ` vectors (the codec is
verified separately); `created_at` is carried as its chrono-parse result. -/

structure SearchResult where
  id : String
  mem_type : String
  content : String
  tags : String
  created_at : ParsedAge
  relevance : ℝ
  method : String

/-- `cosine_similarity`. -/
noncomputable def cosine_similarity (a b : List ℝ) : ℝ :=
  if a.length ≠ b.length ∨ a = [] then 0
  else
    let dot := ((a.zip b).map fun p => p.1 * p.2).sum
    let norm_a := (a.map fun x => x * x).sum
    let norm_b := (b.map fun x => x * x).sum
    let denom := Real.sqrt norm_a * Real.sqrt norm_b
    if denom < 1e-8 then 0 else dot / denom

/-- Row of `SELECT … FROM memories WHERE embedding IS NOT NULL`. -/
structure EmbMemRow where
  id : String
  mem_type : String
  content : String
  tags : String
  created_at : ParsedAge
  embedding : List ℝ

/-- Row of the chunk scan (`memory_chunks` joined to the parent memory). -/
structure EmbChunkRow where
  memory_id : String
  embedding : List ℝ
  mem_type : String
  content : String
  tags : String
  created_at : ParsedAge

/-- `results_map.entry(id).or_insert(fresh)` followed by
`if score > entry.relevance { entry.relevance = score }` with
`score = fresh.relevance`: the method and display fields of an existing entry
are NOT touched, only its relevance is maxed. -/
noncomputable def upsertScore (map : List (String × SearchResult)) (key : String)
    (fresh : SearchResult) : List (String × SearchResult) :=
  if map.any (fun kv => decide (kv.1 = key)) then
    map.map (fun kv =>
      if kv.1 = key then
        (kv.1, if fresh.relevance > kv.2.relevance then
          { kv.2 with relevance := fresh.relevance } else kv.2)
      else kv)
  else map ++ [(key, fresh)]

/-- First loop of `search_embedding`: the memory-level vectors. -/
noncomputable def scanMems (q : List ℝ) :
    List EmbMemRow → List (String × SearchResult) → List (String × SearchResult)
  | [], map => map
  | r :: rs, map =>
    if (0.3 : ℝ) < cosine_similarity q r.embedding then
      scanMems q rs (upsertScore map r.id
        ⟨r.id, r.mem_type, r.content, r.tags, r.created_at,
          apply_temporal_decay (cosine_similarity q r.embedding) r.created_at,
          "embedding"⟩)
    else scanMems q rs map

/-- Second loop of `search_embedding`: the chunk vectors, keyed by the parent
memory id and tagged `"embedding-chunk"` when they create the entry. -/
noncomputable def scanChunks (q : List ℝ) :
    List EmbChunkRow → List (String × SearchResult) → List (String × SearchResult)
  | [], map => map
  | r :: rs, map =>
    if (0.3 : ℝ) < cosine_similarity q r.embedding then
      scanChunks q rs (upsertScore map r.memory_id
        ⟨r.memory_id, r.mem_type, r.content, r.tags, r.created_at,
          apply_temporal_decay (cosine_similarity q r.embedding) r.created_at,
          "embedding-chunk"⟩)
    else scanChunks q rs map

/-- `sort_by(relevance descending)` then `truncate(limit)`. -/
noncomputable def sortTruncate (l : List SearchResult) (limit : Nat) :
    List SearchResult :=
  (l.mergeSort (fun a b => decide (b.relevance ≤ a.relevance))).take limit

/-- `search_embedding`. -/
noncomputable def search_embedding (q : List ℝ) (mems : List EmbMemRow)
    (chunks : List EmbChunkRow) (limit : Nat) : List SearchResult :=
  sortTruncate ((scanChunks q chunks (scanMems q mems [])).map Prod.snd) limit

/-- Row returned by the FTS query of `search_fts` (`MATCH`, `ORDER BY
bm25_score`, `LIMIT 3·limit` are applied by the engine producing this list). -/
structure FtsQueryRow where
  id : String
  mem_type : String
  content : String
  tags : String
  created_at : ParsedAge
  bm25_score : ℝ

/-- `search_fts`: empty-token queries return nothing; otherwise each fetched
row's BM25 score is `abs`-ed, normalized to `b/(b+1)` and temporally decayed;
method is `"fts"`. -/
noncomputable def search_fts (query : String) (rows : List FtsQueryRow)
    (limit : Nat) : List SearchResult :=
  let tokens := (splitWhitespace query).filter (fun t => !t.isEmpty)
  if tokens.isEmpty then []
  else rows.map (fun row =>
    let bm25_raw := abs row.bm25_score
    let bm25_normalized := bm25_raw / (bm25_raw + 1)
    ⟨row.id, row.mem_type, row.content, row.tags, row.created_at,
      apply_temporal_decay bm25_normalized row.created_at, "fts"⟩)

/-- `(x * 10000.0).round() / 10000.0` (on the nonnegative scores that occur
here Rust's round-half-away-from-zero agrees with `round`). -/
noncomputable def round4 (x : ℝ) : ℝ := (round (x * 10000) : ℤ) / 10000

/-- The lexical side of the hybrid merge:
`entry.or_insert((0, 0, r)); entry.0 = entry.0.max(r.relevance)`. -/
noncomputable def hybridUpsertFts (map : List (String × (ℝ × ℝ × SearchResult)))
    (r : SearchResult) : List (String × (ℝ × ℝ × SearchResult)) :=
  if map.any (fun kv => decide (kv.1 = r.id)) then
    map.map (fun kv =>
      if kv.1 = r.id then (kv.1, (max kv.2.1 r.relevance, kv.2.2.1, kv.2.2.2))
      else kv)
  else map ++ [(r.id, (max 0 r.relevance, 0, r))]

/-- The semantic side of the hybrid merge: also adopts the semantic row for
display (`entry.2 = r.clone()`). -/
noncomputable def hybridUpsertEmb (map : List (String × (ℝ × ℝ × SearchResult)))
    (r : SearchResult) : List (String × (ℝ × ℝ × SearchResult)) :=
  if map.any (fun kv => decide (kv.1 = r.id)) then
    map.map (fun kv =>
      if kv.1 = r.id then (kv.1, (kv.2.1, max kv.2.2.1 r.relevance, r))
      else kv)
  else map ++ [(r.id, (0, max 0 r.relevance, r))]

/-- `search_hybrid`: lexical always, semantic only with a query vector; merged
scores are re-weighted `0.7·emb + 0.3·fts`, decayed AGAIN, rounded to four
decimals; method is `"hybrid"` only when both sides are non-zero. -/
noncomputable def search_hybrid (query : String) (ftsRows : List FtsQueryRow)
    (query_embedding : Option (List ℝ)) (mems : List EmbMemRow)
    (chunks : List EmbChunkRow) (limit : Nat) : List SearchResult :=
  let fts_results := search_fts query ftsRows limit
  let emb_results := match query_embedding with
    | some emb => search_embedding emb mems chunks limit
    | none => []
  let map1 := fts_results.foldl hybridUpsertFts []
  let map2 := emb_results.foldl hybridUpsertEmb map1
  let merged := map2.map (fun kv =>
    let fts_score := kv.2.1
    let emb_score := kv.2.2.1
    let data := kv.2.2.2
    let raw := 0.7 * emb_score + 0.3 * fts_score
    let final_score := apply_temporal_decay raw data.created_at
    let data2 := { data with relevance := round4 final_score }
    if emb_score > 0 ∧ fts_score > 0 then { data2 with method := "hybrid" }
    else data2)
  sortTruncate merged limit

theorem apply_temporal_decay_none (r : ℝ) : apply_temporal_decay r none = r := by
  rw [apply_temporal_decay_eq_mul]
  norm_num [parse_days_old, Real.log_one]

theorem apply_temporal_decay_nonneg (r : ℝ) (hr : 0 ≤ r) (p : ParsedAge) :
    0 ≤ apply_temporal_decay r p := by
  obtain ⟨hlo, -⟩ := decay_factor_bounds p
  rw [apply_temporal_decay_eq_mul]
  exact mul_nonneg hr (le_trans (by norm_num) hlo)

/-- Decayed scores of the memory-level hits (cosine strictly above 0.3) a
given memory id contributes to `search_embedding`. -/
noncomputable def memScores (q : List ℝ) (mems : List EmbMemRow) (id : String) :
    List ℝ :=
  (mems.filter (fun r =>
      decide (r.id = id) && decide ((0.3 : ℝ) < cosine_similarity q r.embedding))).map
    (fun r => apply_temporal_decay (cosine_similarity q r.embedding) r.created_at)

/-- Decayed scores of the chunk-level hits of a given memory id. -/
noncomputable def chunkScores (q : List ℝ) (chunks : List EmbChunkRow) (id : String) :
    List ℝ :=
  (chunks.filter (fun r =>
      decide (r.memory_id = id) && decide ((0.3 : ℝ) < cosine_similarity q r.embedding))).map
    (fun r => apply_temporal_decay (cosine_similarity q r.embedding) r.created_at)

theorem cosine_one_zero_three_four :
    cosine_similarity [(1 : ℝ), 0] [(3 : ℝ), 4] = 3 / 5 := by
  rw [cosine_similarity, if_neg (by simp)]
  have h25 : Real.sqrt ((3 : ℝ) * 3 + (4 * 4 + 0)) = 5 := by
    rw [show (3 : ℝ) * 3 + (4 * 4 + 0) = 5 ^ 2 by norm_num]
    exact Real.sqrt_sq (by norm_num)
  have h1 : Real.sqrt ((1 : ℝ) * 1 + (0 * 0 + 0)) = 1 := by
    rw [show (1 : ℝ) * 1 + (0 * 0 + 0) = 1 by norm_num]
    exact Real.sqrt_one
  simp only [List.zip_cons_cons, List.zip_nil_right, List.map_cons, List.map_nil,
    List.sum_cons, List.sum_nil, h25, h1]
  rw [if_neg (by norm_num)]
  norm_num

theorem cosine_one_zero_self :
    cosine_similarity [(1 : ℝ), 0] [(1 : ℝ), 0] = 1 := by
  rw [cosine_similarity, if_neg (by simp)]
  have h1 : Real.sqrt ((1 : ℝ) * 1 + (0 * 0 + 0)) = 1 := by
    rw [show (1 : ℝ) * 1 + (0 * 0 + 0) = 1 by norm_num]
    exact Real.sqrt_one
  simp only [List.zip_cons_cons, List.zip_nil_right, List.map_cons, List.map_nil,
    List.sum_cons, List.sum_nil, h1]
  rw [if_neg (by norm_num)]
  norm_num

theorem search_embedding_concrete :
    search_embedding [(1 : ℝ), 0]
      [⟨"m", "note", "c", "", none, [(3 : ℝ), 4]⟩]
      [⟨"m", [(1 : ℝ), 0], "note", "c", "", none⟩] 5 =
      [⟨"m", "note", "c", "", none, 1, "embedding"⟩] := by
  have hm : scanMems [(1 : ℝ), 0] [⟨"m", "note", "c", "", none, [(3 : ℝ), 4]⟩] [] =
      [("m", ⟨"m", "note", "c", "", none, 3 / 5, "embedding"⟩)] := by
    rw [scanMems]
    simp only [cosine_one_zero_three_four, apply_temporal_decay_none]
    rw [if_pos (by norm_num)]
    rw [scanMems, upsertScore]
    simp
  have hc : scanChunks [(1 : ℝ), 0]
      [⟨"m", [(1 : ℝ), 0], "note", "c", "", none⟩]
      [("m", ⟨"m", "note", "c", "", none, 3 / 5, "embedding"⟩)] =
      [("m", ⟨"m", "note", "c", "", none, 1, "embedding"⟩)] := by
    rw [scanChunks]
    simp only [cosine_one_zero_self, apply_temporal_decay_none]
    rw [if_pos (by norm_num)]
    rw [scanChunks, upsertScore]
    rw [if_pos (by simp)]
    simp only [List.map_cons, List.map_nil]
    rw [if_pos trivial, if_pos (by norm_num : (1 : ℝ) > 3 / 5)]
  rw [search_embedding, hm, hc]
  simp [sortTruncate, List.mergeSort]

/-- Counterexample to C6 as stated: a memory whose maximum decayed score comes
from a chunk (chunk cosine 1 beats memory-level cosine 0.6) still carries
method `"embedding"`, because the memory-level scan inserted the entry first
and the chunk pass updates only the relevance, never the method. -/
theorem C6_method_counterexample :
    ¬ (∀ (q : List ℝ) (mems : List EmbMemRow) (chunks : List EmbChunkRow)
        (limit : Nat), ∀ r ∈ search_embedding q mems chunks limit,
        (∃ s ∈ chunkScores q chunks r.id,
          (∀ u ∈ memScores q mems r.id, u < s) ∧ s = r.relevance) →
        r.method = "embedding-chunk") := by
  intro hclaim
  have hres := hclaim [(1 : ℝ), 0]
    [⟨"m", "note", "c", "", none, [(3 : ℝ), 4]⟩]
    [⟨"m", [(1 : ℝ), 0], "note", "c", "", none⟩] 5
    ⟨"m", "note", "c", "", none, 1, "embedding"⟩
    (by rw [search_embedding_concrete]; exact List.mem_singleton.mpr rfl)
  have hmethod : ("embedding" : String) = "embedding-chunk" := by
    apply hres
    refine ⟨1, ?_, ?_, rfl⟩
    · unfold chunkScores
      apply List.mem_map.mpr
      refine ⟨⟨"m", [(1 : ℝ), 0], "note", "c", "", none⟩, ?_, ?_⟩
      · apply List.mem_filter.mpr
        refine ⟨List.mem_singleton.mpr rfl, ?_⟩
        simp only [Bool.and_eq_true, decide_eq_true_eq]
        exact ⟨trivial, by rw [cosine_one_zero_self]; norm_num⟩
      · rw [cosine_one_zero_self, apply_temporal_decay_none]
    · intro u hu
      unfold memScores at hu
      obtain ⟨r2, hr2, hval⟩ := List.mem_map.mp hu
      have : r2 = ⟨"m", "note", "c", "", none, [(3 : ℝ), 4]⟩ :=
        List.mem_singleton.mp (List.mem_filter.mp hr2).1
      subst this
      rw [← hval, cosine_one_zero_three_four, apply_temporal_decay_none]
      norm_num
  exact absurd hmethod (by decide)

theorem memScores_append (q : List ℝ) (l1 l2 : List EmbMemRow) (id : String) :
    memScores q (l1 ++ l2) id = memScores q l1 id ++ memScores q l2 id := by
  unfold memScores
  rw [List.filter_append, List.map_append]

theorem chunkScores_append (q : List ℝ) (l1 l2 : List EmbChunkRow) (id : String) :
    chunkScores q (l1 ++ l2) id = chunkScores q l1 id ++ chunkScores q l2 id := by
  unfold chunkScores
  rw [List.filter_append, List.map_append]

theorem memScores_nil (q : List ℝ) (id : String) : memScores q [] id = [] := rfl

theorem chunkScores_nil (q : List ℝ) (id : String) : chunkScores q [] id = [] := rfl

theorem memScores_singleton_hit (q : List ℝ) (r : EmbMemRow) (id : String)
    (hid : r.id = id) (hsim : (0.3 : ℝ) < cosine_similarity q r.embedding) :
    memScores q [r] id =
      [apply_temporal_decay (cosine_similarity q r.embedding) r.created_at] := by
  unfold memScores
  rw [List.filter_cons_of_pos (by simp [hid, hsim]), List.filter_nil, List.map_cons,
    List.map_nil]

theorem memScores_singleton_miss (q : List ℝ) (r : EmbMemRow) (id : String)
    (h : ¬ (r.id = id ∧ (0.3 : ℝ) < cosine_similarity q r.embedding)) :
    memScores q [r] id = [] := by
  unfold memScores
  rw [List.filter_cons_of_neg (by simpa using h), List.filter_nil, List.map_nil]

theorem chunkScores_singleton_hit (q : List ℝ) (r : EmbChunkRow) (id : String)
    (hid : r.memory_id = id) (hsim : (0.3 : ℝ) < cosine_similarity q r.embedding) :
    chunkScores q [r] id =
      [apply_temporal_decay (cosine_similarity q r.embedding) r.created_at] := by
  unfold chunkScores
  rw [List.filter_cons_of_pos (by simp [hid, hsim]), List.filter_nil, List.map_cons,
    List.map_nil]

theorem chunkScores_singleton_miss (q : List ℝ) (r : EmbChunkRow) (id : String)
    (h : ¬ (r.memory_id = id ∧ (0.3 : ℝ) < cosine_similarity q r.embedding)) :
    chunkScores q [r] id = [] := by
  unfold chunkScores
  rw [List.filter_cons_of_neg (by simpa using h), List.filter_nil, List.map_nil]

/-- Invariant of the two accumulation passes: each map entry is keyed by its
result id, holds the maximum decayed score of the hits seen so far, and its
method records whether the memory-level vector hit the threshold. -/
def ScanInv (q : List ℝ) (mems : List EmbMemRow) (chunks : List EmbChunkRow)
    (map : List (String × SearchResult)) : Prop :=
  (∀ kv ∈ map, kv.2.id = kv.1) ∧
  (∀ kv ∈ map, kv.2.relevance ∈ memScores q mems kv.1 ++ chunkScores q chunks kv.1) ∧
  (∀ kv ∈ map, ∀ s ∈ memScores q mems kv.1 ++ chunkScores q chunks kv.1,
    s ≤ kv.2.relevance) ∧
  (∀ kv ∈ map, kv.2.method =
    (if memScores q mems kv.1 = [] then "embedding-chunk" else "embedding")) ∧
  (∀ id, memScores q mems id ++ chunkScores q chunks id ≠ [] →
    (map.any fun kv => decide (kv.1 = id)) = true)

theorem any_key_map (map : List (String × SearchResult))
    (u : String × SearchResult → String × SearchResult)
    (hu : ∀ kv, (u kv).1 = kv.1) (id : String) :
    ((map.map u).any fun kv => decide (kv.1 = id)) =
      (map.any fun kv => decide (kv.1 = id)) := by
  induction map with
  | nil => rfl
  | cons kv l ih => simp only [List.map_cons, List.any_cons, hu kv, ih]

theorem ScanInv_mem_step (q : List ℝ) (mems0 : List EmbMemRow)
    (map : List (String × SearchResult)) (r : EmbMemRow)
    (h : ScanInv q mems0 [] map)
    (hsim : (0.3 : ℝ) < cosine_similarity q r.embedding) :
    ScanInv q (mems0 ++ [r]) []
      (upsertScore map r.id
        ⟨r.id, r.mem_type, r.content, r.tags, r.created_at,
          apply_temporal_decay (cosine_similarity q r.embedding) r.created_at,
          "embedding"⟩) := by
  obtain ⟨hA, hB, hC, hD, hE⟩ := h
  simp only [ScanInv, chunkScores_nil, List.append_nil] at *
  set score := apply_temporal_decay (cosine_similarity q r.embedding) r.created_at
    with hscore
  set fresh : SearchResult :=
    ⟨r.id, r.mem_type, r.content, r.tags, r.created_at, score, "embedding"⟩
    with hfresh
  have hmem_eq : ∀ id, memScores q (mems0 ++ [r]) id =
      memScores q mems0 id ++ (if r.id = id then [score] else []) := by
    intro id
    rw [memScores_append]
    congr 1
    by_cases hid : r.id = id
    · rw [if_pos hid, memScores_singleton_hit q r id hid hsim]
    · rw [if_neg hid, memScores_singleton_miss q r id (fun hand => hid hand.1)]
  unfold upsertScore
  by_cases hany : (map.any fun kv => decide (kv.1 = r.id)) = true
  · rw [if_pos hany]
    set u : String × SearchResult → String × SearchResult := fun kv =>
      if kv.1 = r.id then
        (kv.1, if fresh.relevance > kv.2.relevance then
          { kv.2 with relevance := fresh.relevance } else kv.2)
      else kv with hu
    have hufst : ∀ kv, (u kv).1 = kv.1 := by
      intro kv; rw [hu]; dsimp only; split <;> rfl
    have hu_eqkey : ∀ kv : String × SearchResult, kv.1 = r.id →
        u kv = (kv.1, if score > kv.2.relevance then
          { kv.2 with relevance := score } else kv.2) := by
      intro kv hk; rw [hu]; dsimp only; rw [if_pos hk]
    have hu_nekey : ∀ kv : String × SearchResult, kv.1 ≠ r.id → u kv = kv := by
      intro kv hk; rw [hu]; dsimp only; rw [if_neg hk]
    have holdne : ∀ kv ∈ map, kv.1 = r.id → memScores q mems0 kv.1 ≠ [] := by
      intro kv hkv _
      exact List.ne_nil_of_mem (hB kv hkv)
    refine ⟨?_, ?_, ?_, ?_, ?_⟩
    · intro kv' hkv'
      obtain ⟨kv, hkv, rfl⟩ := List.mem_map.mp hkv'
      by_cases hk : kv.1 = r.id
      · rw [hu_eqkey kv hk]
        by_cases hrel : score > kv.2.relevance
        · rw [if_pos hrel]; exact hA kv hkv
        · rw [if_neg hrel]; exact hA kv hkv
      · rw [hu_nekey kv hk]; exact hA kv hkv
    · intro kv' hkv'
      obtain ⟨kv, hkv, rfl⟩ := List.mem_map.mp hkv'
      by_cases hk : kv.1 = r.id
      · rw [hu_eqkey kv hk]
        rw [hmem_eq kv.1, if_pos hk.symm]
        by_cases hrel : score > kv.2.relevance
        · rw [if_pos hrel]
          exact List.mem_append_right _ (List.mem_singleton.mpr rfl)
        · rw [if_neg hrel]
          exact List.mem_append_left _ (hB kv hkv)
      · rw [hu_nekey kv hk, hmem_eq kv.1,
          if_neg (fun he => hk he.symm), List.append_nil]
        exact hB kv hkv
    · intro kv' hkv'
      obtain ⟨kv, hkv, rfl⟩ := List.mem_map.mp hkv'
      by_cases hk : kv.1 = r.id
      · rw [hu_eqkey kv hk]
        rw [hmem_eq kv.1, if_pos hk.symm]
        intro s hs
        rcases List.mem_append.mp hs with hsold | hsnew
        · have h1 := hC kv hkv s hsold
          by_cases hrel : score > kv.2.relevance
          · rw [if_pos hrel]; dsimp only; linarith
          · rw [if_neg hrel]; exact h1
        · rw [List.mem_singleton] at hsnew
          subst hsnew
          by_cases hrel : score > kv.2.relevance
          · rw [if_pos hrel]
          · rw [if_neg hrel]
            exact not_lt.mp hrel
      · rw [hu_nekey kv hk, hmem_eq kv.1,
          if_neg (fun he => hk he.symm), List.append_nil]
        exact hC kv hkv
    · intro kv' hkv'
      obtain ⟨kv, hkv, rfl⟩ := List.mem_map.mp hkv'
      by_cases hk : kv.1 = r.id
      · rw [hu_eqkey kv hk]
        have hne2 : memScores q (mems0 ++ [r]) kv.1 ≠ [] := by
          rw [hmem_eq kv.1, if_pos hk.symm]
          simp
        rw [if_neg hne2]
        have hold := hD kv hkv
        rw [if_neg (holdne kv hkv hk)] at hold
        by_cases hrel : score > kv.2.relevance
        · rw [if_pos hrel]; exact hold
        · rw [if_neg hrel]; exact hold
      · rw [hu_nekey kv hk, hmem_eq kv.1]
        rw [if_neg (show ¬ r.id = kv.1 from fun he => hk he.symm), List.append_nil]
        exact hD kv hkv
    · intro id hne
      rw [any_key_map map u hufst id]
      rw [hmem_eq id] at hne
      by_cases hid : r.id = id
      · rw [← hid]; exact hany
      · rw [if_neg hid, List.append_nil] at hne
        exact hE id hne
  · rw [if_neg hany]
    have hempty : memScores q mems0 r.id = [] := by
      by_contra hco
      exact hany (hE r.id hco)
    have hnokey : ∀ kv ∈ map, kv.1 ≠ r.id := by
      intro kv hkv hk
      have := hB kv hkv
      rw [hk, hempty] at this
      exact absurd this (List.not_mem_nil _)
    refine ⟨?_, ?_, ?_, ?_, ?_⟩
    · intro kv hkv
      rcases List.mem_append.mp hkv with hold | hnew
      · exact hA kv hold
      · rw [List.mem_singleton] at hnew; subst hnew; rfl
    · intro kv hkv
      rcases List.mem_append.mp hkv with hold | hnew
      · rw [hmem_eq kv.1, if_neg (fun he => hnokey kv hold he.symm), List.append_nil]
        exact hB kv hold
      · rw [List.mem_singleton] at hnew; subst hnew
        rw [hmem_eq r.id, if_pos rfl, hempty, List.nil_append]
        exact List.mem_singleton.mpr rfl
    · intro kv hkv
      rcases List.mem_append.mp hkv with hold | hnew
      · rw [hmem_eq kv.1, if_neg (fun he => hnokey kv hold he.symm), List.append_nil]
        exact hC kv hold
      · rw [List.mem_singleton] at hnew; subst hnew
        rw [hmem_eq r.id, if_pos rfl, hempty, List.nil_append]
        intro s hs
        rw [List.mem_singleton] at hs; subst hs
        exact le_refl _
    · intro kv hkv
      rcases List.mem_append.mp hkv with hold | hnew
      · rw [hmem_eq kv.1]
        rw [if_neg (show ¬ r.id = kv.1 from fun he => hnokey kv hold he.symm),
          List.append_nil]
        exact hD kv hold
      · rw [List.mem_singleton] at hnew; subst hnew
        rw [hmem_eq r.id, if_pos rfl, hempty, List.nil_append]
        rw [if_neg (by simp)]
    · intro id hne
      rw [List.any_append]
      by_cases hid : r.id = id
      · subst hid
        simp
      · rw [hmem_eq id, if_neg hid, List.append_nil] at hne
        rw [hE id hne, Bool.true_or]

theorem ScanInv_chunk_step (q : List ℝ) (mems : List EmbMemRow)
    (cs0 : List EmbChunkRow) (map : List (String × SearchResult)) (r : EmbChunkRow)
    (h : ScanInv q mems cs0 map)
    (hsim : (0.3 : ℝ) < cosine_similarity q r.embedding) :
    ScanInv q mems (cs0 ++ [r])
      (upsertScore map r.memory_id
        ⟨r.memory_id, r.mem_type, r.content, r.tags, r.created_at,
          apply_temporal_decay (cosine_similarity q r.embedding) r.created_at,
          "embedding-chunk"⟩) := by
  obtain ⟨hA, hB, hC, hD, hE⟩ := h
  set score := apply_temporal_decay (cosine_similarity q r.embedding) r.created_at
    with hscore
  set fresh : SearchResult :=
    ⟨r.memory_id, r.mem_type, r.content, r.tags, r.created_at, score,
      "embedding-chunk"⟩ with hfresh
  have hchunk_eq : ∀ id, chunkScores q (cs0 ++ [r]) id =
      chunkScores q cs0 id ++ (if r.memory_id = id then [score] else []) := by
    intro id
    rw [chunkScores_append]
    congr 1
    by_cases hid : r.memory_id = id
    · rw [if_pos hid, chunkScores_singleton_hit q r id hid hsim]
    · rw [if_neg hid, chunkScores_singleton_miss q r id (fun hand => hid hand.1)]
  unfold upsertScore
  by_cases hany : (map.any fun kv => decide (kv.1 = r.memory_id)) = true
  · rw [if_pos hany]
    set u : String × SearchResult → String × SearchResult := fun kv =>
      if kv.1 = r.memory_id then
        (kv.1, if fresh.relevance > kv.2.relevance then
          { kv.2 with relevance := fresh.relevance } else kv.2)
      else kv with hu
    have hufst : ∀ kv, (u kv).1 = kv.1 := by
      intro kv; rw [hu]; dsimp only; split <;> rfl
    have hu_eqkey : ∀ kv : String × SearchResult, kv.1 = r.memory_id →
        u kv = (kv.1, if score > kv.2.relevance then
          { kv.2 with relevance := score } else kv.2) := by
      intro kv hk; rw [hu]; dsimp only; rw [if_pos hk]
    have hu_nekey : ∀ kv : String × SearchResult, kv.1 ≠ r.memory_id → u kv = kv := by
      intro kv hk; rw [hu]; dsimp only; rw [if_neg hk]
    refine ⟨?_, ?_, ?_, ?_, ?_⟩
    · intro kv' hkv'
      obtain ⟨kv, hkv, rfl⟩ := List.mem_map.mp hkv'
      by_cases hk : kv.1 = r.memory_id
      · rw [hu_eqkey kv hk]
        by_cases hrel : score > kv.2.relevance
        · rw [if_pos hrel]; exact hA kv hkv
        · rw [if_neg hrel]; exact hA kv hkv
      · rw [hu_nekey kv hk]; exact hA kv hkv
    · intro kv' hkv'
      obtain ⟨kv, hkv, rfl⟩ := List.mem_map.mp hkv'
      by_cases hk : kv.1 = r.memory_id
      · rw [hu_eqkey kv hk]
        rw [hchunk_eq kv.1, if_pos hk.symm]
        by_cases hrel : score > kv.2.relevance
        · rw [if_pos hrel]
          exact List.mem_append_right _
            (List.mem_append_right _ (List.mem_singleton.mpr rfl))
        · rw [if_neg hrel, ← List.append_assoc]
          exact List.mem_append_left _ (hB kv hkv)
      · rw [hu_nekey kv hk, hchunk_eq kv.1]
        rw [if_neg (show ¬ r.memory_id = kv.1 from fun he => hk he.symm),
          List.append_nil]
        exact hB kv hkv
    · intro kv' hkv'
      obtain ⟨kv, hkv, rfl⟩ := List.mem_map.mp hkv'
      by_cases hk : kv.1 = r.memory_id
      · rw [hu_eqkey kv hk]
        rw [hchunk_eq kv.1, if_pos hk.symm]
        intro s hs
        rw [← List.append_assoc] at hs
        rcases List.mem_append.mp hs with hsold | hsnew
        · have h1 := hC kv hkv s hsold
          by_cases hrel : score > kv.2.relevance
          · rw [if_pos hrel]; dsimp only; linarith
          · rw [if_neg hrel]; exact h1
        · rw [List.mem_singleton] at hsnew
          subst hsnew
          by_cases hrel : score > kv.2.relevance
          · rw [if_pos hrel]
          · rw [if_neg hrel]
            exact not_lt.mp hrel
      · rw [hu_nekey kv hk, hchunk_eq kv.1]
        rw [if_neg (show ¬ r.memory_id = kv.1 from fun he => hk he.symm),
          List.append_nil]
        exact hC kv hkv
    · intro kv' hkv'
      obtain ⟨kv, hkv, rfl⟩ := List.mem_map.mp hkv'
      by_cases hk : kv.1 = r.memory_id
      · rw [hu_eqkey kv hk]
        have hold := hD kv hkv
        by_cases hrel : score > kv.2.relevance
        · rw [if_pos hrel]; exact hold
        · rw [if_neg hrel]; exact hold
      · rw [hu_nekey kv hk]; exact hD kv hkv
    · intro id hne
      rw [any_key_map map u hufst id]
      by_cases hid : r.memory_id = id
      · rw [← hid]; exact hany
      · rw [hchunk_eq id, if_neg hid, List.append_nil] at hne
        exact hE id hne
  · rw [if_neg hany]
    have hempty : memScores q mems r.memory_id ++ chunkScores q cs0 r.memory_id
        = [] := by
      by_contra hco
      exact hany (hE r.memory_id hco)
    rw [List.append_eq_nil] at hempty
    have hnokey : ∀ kv ∈ map, kv.1 ≠ r.memory_id := by
      intro kv hkv hk
      have := hB kv hkv
      rw [hk, hempty.1, hempty.2] at this
      exact absurd this (List.not_mem_nil _)
    refine ⟨?_, ?_, ?_, ?_, ?_⟩
    · intro kv hkv
      rcases List.mem_append.mp hkv with hold | hnew
      · exact hA kv hold
      · rw [List.mem_singleton] at hnew; subst hnew; rfl
    · intro kv hkv
      rcases List.mem_append.mp hkv with hold | hnew
      · rw [hchunk_eq kv.1]
        rw [if_neg (show ¬ r.memory_id = kv.1 from fun he => hnokey kv hold he.symm),
          List.append_nil]
        exact hB kv hold
      · rw [List.mem_singleton] at hnew; subst hnew
        rw [hchunk_eq r.memory_id, if_pos rfl, hempty.1, hempty.2]
        exact List.mem_singleton.mpr rfl
    · intro kv hkv
      rcases List.mem_append.mp hkv with hold | hnew
      · rw [hchunk_eq kv.1]
        rw [if_neg (show ¬ r.memory_id = kv.1 from fun he => hnokey kv hold he.symm),
          List.append_nil]
        exact hC kv hold
      · rw [List.mem_singleton] at hnew; subst hnew
        rw [hchunk_eq r.memory_id, if_pos rfl, hempty.1, hempty.2]
        intro s hs
        simp only [List.nil_append, List.mem_singleton] at hs
        subst hs
        exact le_refl _
    · intro kv hkv
      rcases List.mem_append.mp hkv with hold | hnew
      · exact hD kv hold
      · rw [List.mem_singleton] at hnew; subst hnew
        rw [if_pos hempty.1]
    · intro id hne
      rw [List.any_append]
      by_cases hid : r.memory_id = id
      · subst hid
        simp
      · rw [hchunk_eq id, if_neg hid, List.append_nil] at hne
        rw [hE id hne, Bool.true_or]

theorem scanMems_inv (q : List ℝ) :
    ∀ (rs mems0 : List EmbMemRow) (map : List (String × SearchResult)),
      ScanInv q mems0 [] map → ScanInv q (mems0 ++ rs) [] (scanMems q rs map) := by
  intro rs
  induction rs with
  | nil =>
    intro mems0 map h
    rw [List.append_nil, scanMems]
    exact h
  | cons r rs ih =>
    intro mems0 map h
    rw [show mems0 ++ r :: rs = (mems0 ++ [r]) ++ rs by simp, scanMems]
    by_cases hsim : (0.3 : ℝ) < cosine_similarity q r.embedding
    · rw [if_pos hsim]
      exact ih (mems0 ++ [r]) _ (ScanInv_mem_step q mems0 map r h hsim)
    · rw [if_neg hsim]
      apply ih (mems0 ++ [r])
      obtain ⟨hA, hB, hC, hD, hE⟩ := h
      have hmem_eq : ∀ id, memScores q (mems0 ++ [r]) id = memScores q mems0 id := by
        intro id
        rw [memScores_append, memScores_singleton_miss q r id (fun hand => hsim hand.2),
          List.append_nil]
      exact ⟨hA, fun kv hkv => by rw [hmem_eq kv.1]; exact hB kv hkv,
        fun kv hkv => by rw [hmem_eq kv.1]; exact hC kv hkv,
        fun kv hkv => by rw [hmem_eq kv.1]; exact hD kv hkv,
        fun id hne => hE id (by rwa [hmem_eq id] at hne)⟩

theorem scanChunks_inv (q : List ℝ) (mems : List EmbMemRow) :
    ∀ (cs cs0 : List EmbChunkRow) (map : List (String × SearchResult)),
      ScanInv q mems cs0 map → ScanInv q mems (cs0 ++ cs) (scanChunks q cs map) := by
  intro cs
  induction cs with
  | nil =>
    intro cs0 map h
    rw [List.append_nil, scanChunks]
    exact h
  | cons r cs ih =>
    intro cs0 map h
    rw [show cs0 ++ r :: cs = (cs0 ++ [r]) ++ cs by simp, scanChunks]
    by_cases hsim : (0.3 : ℝ) < cosine_similarity q r.embedding
    · rw [if_pos hsim]
      exact ih (cs0 ++ [r]) _ (ScanInv_chunk_step q mems cs0 map r h hsim)
    · rw [if_neg hsim]
      apply ih (cs0 ++ [r])
      obtain ⟨hA, hB, hC, hD, hE⟩ := h
      have hchunk_eq : ∀ id, chunkScores q (cs0 ++ [r]) id =
          chunkScores q cs0 id := by
        intro id
        rw [chunkScores_append,
          chunkScores_singleton_miss q r id (fun hand => hsim hand.2),
          List.append_nil]
      exact ⟨hA, fun kv hkv => by rw [hchunk_eq kv.1]; exact hB kv hkv,
        fun kv hkv => by rw [hchunk_eq kv.1]; exact hC kv hkv,
        fun kv hkv => hD kv hkv,
        fun id hne => hE id (by rwa [hchunk_eq id] at hne)⟩

/-- **C6 (amended).** Every result of `search_embedding` is fed only by hits
with cosine strictly above 0.3: its relevance is the maximum temporally-decayed
score over the memory-level embedding and all chunk embeddings of its id; but
the method records which scan CREATED the entry, not where the maximum came
from — it is `"embedding"` exactly when the memory-level vector passed the
threshold, and `"embedding-chunk"` only when the entry exists purely through
chunks. -/
theorem C6_search_embedding_amended :
    ∀ (q : List ℝ) (mems : List EmbMemRow) (chunks : List EmbChunkRow)
      (limit : Nat), ∀ r ∈ search_embedding q mems chunks limit,
      r.relevance ∈ memScores q mems r.id ++ chunkScores q chunks r.id ∧
      (∀ s ∈ memScores q mems r.id ++ chunkScores q chunks r.id,
        s ≤ r.relevance) ∧
      r.method =
        (if memScores q mems r.id = [] then "embedding-chunk" else "embedding") := by
  intro q mems chunks limit r hr
  have hbase : ScanInv q [] [] [] := by
    refine ⟨fun kv hkv => absurd hkv (List.not_mem_nil kv),
      fun kv hkv => absurd hkv (List.not_mem_nil kv),
      fun kv hkv => absurd hkv (List.not_mem_nil kv),
      fun kv hkv => absurd hkv (List.not_mem_nil kv),
      fun id hne => absurd rfl hne⟩
  have hinv1 : ScanInv q mems [] (scanMems q mems []) := by
    have := scanMems_inv q mems [] [] hbase
    rwa [List.nil_append] at this
  have hinv2 : ScanInv q mems chunks (scanChunks q chunks (scanMems q mems [])) := by
    have := scanChunks_inv q mems chunks [] (scanMems q mems []) hinv1
    rwa [List.nil_append] at this
  obtain ⟨hA, hB, hC, hD, -⟩ := hinv2
  rw [search_embedding, sortTruncate] at hr
  have hr2 : r ∈ (scanChunks q chunks (scanMems q mems [])).map Prod.snd :=
    (List.mergeSort_perm _ _).mem_iff.mp (List.mem_of_mem_take hr)
  obtain ⟨kv, hkv, rfl⟩ := List.mem_map.mp hr2
  rw [hA kv hkv]
  exact ⟨hB kv hkv, hC kv hkv, hD kv hkv⟩

/-- Witness for C6 (amended) at the concrete two-row store. -/
theorem C6_search_embedding_amended_witness :
    (⟨"m", "note", "c", "", none, 1, "embedding"⟩ : SearchResult).method =
      (if memScores [(1 : ℝ), 0] [⟨"m", "note", "c", "", none, [(3 : ℝ), 4]⟩] "m" = []
       then "embedding-chunk" else "embedding") :=
  (C6_search_embedding_amended [(1 : ℝ), 0]
    [⟨"m", "note", "c", "", none, [(3 : ℝ), 4]⟩]
    [⟨"m", [(1 : ℝ), 0], "note", "c", "", none⟩] 5
    ⟨"m", "note", "c", "", none, 1, "embedding"⟩
    (by rw [search_embedding_concrete]; exact List.mem_singleton.mpr rfl)).2.2

theorem search_fts_nonneg (query : String) (rows : List FtsQueryRow) (limit : Nat) :
    ∀ r ∈ search_fts query rows limit, 0 ≤ r.relevance := by
  intro r hr
  rw [search_fts] at hr
  split at hr
  · exact absurd hr (List.not_mem_nil r)
  · obtain ⟨row, -, rfl⟩ := List.mem_map.mp hr
    apply apply_temporal_decay_nonneg
    positivity

theorem search_fts_ids (query : String) (rows : List FtsQueryRow) (limit : Nat) :
    (search_fts query rows limit).map SearchResult.id =
      if ((splitWhitespace query).filter (fun t => !t.isEmpty)).isEmpty then []
      else rows.map FtsQueryRow.id := by
  rw [search_fts]
  split
  · rfl
  · rw [List.map_map]
    rfl

theorem foldl_hybridUpsertFts (l : List SearchResult) :
    ∀ acc : List (String × (ℝ × ℝ × SearchResult)),
      (∀ r ∈ l, 0 ≤ r.relevance) → (l.map SearchResult.id).Nodup →
      (∀ r ∈ l, ∀ kv ∈ acc, kv.1 ≠ r.id) →
      l.foldl hybridUpsertFts acc =
        acc ++ l.map (fun r => (r.id, (r.relevance, (0 : ℝ), r))) := by
  induction l with
  | nil =>
    intro acc _ _ _
    rw [List.foldl_nil, List.map_nil, List.append_nil]
  | cons r l ih =>
    intro acc hnn hnodup hdisj
    rw [List.foldl_cons]
    have hany : ¬ (acc.any fun kv => decide (kv.1 = r.id)) = true := by
      rw [List.any_eq_true]
      rintro ⟨kv, hkv, hk⟩
      rw [decide_eq_true_eq] at hk
      exact hdisj r (List.mem_cons_self r l) kv hkv hk
    have hup : hybridUpsertFts acc r = acc ++ [(r.id, (r.relevance, (0 : ℝ), r))] := by
      rw [hybridUpsertFts, if_neg hany,
        max_eq_right (hnn r (List.mem_cons_self r l))]
    rw [hup]
    rw [List.map_cons] at hnodup
    obtain ⟨hrnotin, hnodup2⟩ := List.nodup_cons.mp hnodup
    rw [ih (acc ++ [(r.id, (r.relevance, (0 : ℝ), r))])
      (fun r2 h2 => hnn r2 (List.mem_cons_of_mem r h2)) hnodup2 ?_]
    · rw [List.map_cons, List.append_assoc, List.singleton_append]
    · intro r2 h2 kv hkv
      rcases List.mem_append.mp hkv with hold | hnew
      · exact hdisj r2 (List.mem_cons_of_mem r h2) kv hold
      · rw [List.mem_singleton] at hnew
        subst hnew
        intro he
        have he2 : r.id = r2.id := he
        exact hrnotin (by rw [he2]; exact List.mem_map_of_mem SearchResult.id h2)

/-- With no query vector, `search_hybrid` is the lexical results re-scored as
`round4(decay(0.3 · fts_relevance))` (decayed a second time), method `"fts"`,
sorted descending and truncated. -/
theorem search_hybrid_none (query : String) (ftsRows : List FtsQueryRow)
    (mems : List EmbMemRow) (chunks : List EmbChunkRow) (limit : Nat)
    (hnodup : (ftsRows.map FtsQueryRow.id).Nodup) :
    search_hybrid query ftsRows none mems chunks limit =
      sortTruncate
        ((search_fts query ftsRows limit).map (fun r =>
          { r with relevance :=
              round4 (apply_temporal_decay (0.3 * r.relevance) r.created_at) }))
        limit := by
  have hfrnodup : ((search_fts query ftsRows limit).map SearchResult.id).Nodup := by
    rw [search_fts_ids]
    split
    · exact List.nodup_nil
    · exact hnodup
  have hfold := foldl_hybridUpsertFts (search_fts query ftsRows limit) []
    (search_fts_nonneg query ftsRows limit) hfrnodup
    (fun r _ kv hkv => absurd hkv (List.not_mem_nil kv))
  simp only [search_hybrid, List.foldl_nil, hfold, List.nil_append, List.map_map]
  congr 1
  apply List.map_congr_left
  intro r hr
  simp only [Function.comp_apply]
  rw [if_neg (fun hand => lt_irrefl (0 : ℝ) hand.1)]
  have harith : (0.7 : ℝ) * 0 + 0.3 * r.relevance = 0.3 * r.relevance := by ring
  rw [harith]

/-- **C7 (amended).** When no query vector is available, the hybrid search
does fall back to lexical-only candidates — the result set is drawn from
`search_fts(q)` — but the relevances are NOT the fts scores: each is reweighted
to `0.3·fts_score`, temporally decayed a second time, and rounded to four
decimals, and the list is truncated to `limit` (while `search_fts` returns up
to `3·limit` rows); ordering follows the re-decayed scores. -/
theorem C7_lexical_fallback_amended :
    ∀ (query : String) (ftsRows : List FtsQueryRow) (mems : List EmbMemRow)
      (chunks : List EmbChunkRow) (limit : Nat),
      (ftsRows.map FtsQueryRow.id).Nodup →
      search_hybrid query ftsRows none mems chunks limit =
        sortTruncate
          ((search_fts query ftsRows limit).map (fun r =>
            { r with relevance :=
                round4 (apply_temporal_decay (0.3 * r.relevance) r.created_at) }))
          limit :=
  fun query ftsRows mems chunks limit hnodup =>
    search_hybrid_none query ftsRows mems chunks limit hnodup

/-- Witness for C7 (amended) at a concrete one-row corpus. -/
theorem C7_lexical_fallback_amended_witness :
    search_hybrid "w" [⟨"a", "note", "c", "", none, -1⟩] none [] [] 5 =
      sortTruncate
        ((search_fts "w" [⟨"a", "note", "c", "", none, -1⟩] 5).map (fun r =>
          { r with relevance :=
              round4 (apply_temporal_decay (0.3 * r.relevance) r.created_at) }))
        5 :=
  C7_lexical_fallback_amended "w" [⟨"a", "note", "c", "", none, -1⟩] [] [] 5
    (by decide)

theorem search_fts_concrete :
    search_fts "w" [⟨"a", "note", "c", "", none, -1⟩] 5 =
      [⟨"a", "note", "c", "", none, 1 / 2, "fts"⟩] := by
  rw [search_fts, if_neg (by decide)]
  simp only [List.map_cons, List.map_nil]
  rw [show abs (-1 : ℝ) / (abs (-1 : ℝ) + 1) = 1 / 2 by norm_num]
  rw [apply_temporal_decay_none]

/-- Counterexample to C7 as stated: with the Embedder unavailable the result
set comes from `search_fts`, but the relevance is NOT the fts score — the lone
hit scores 0.5 in `search_fts` and 0.15 (= round4(0.3·0.5), no further decay
for a fresh row) in the fallback search. -/
theorem C7_lexical_fallback_counterexample :
    ((search_hybrid "w" [⟨"a", "note", "c", "", none, -1⟩] none [] [] 5).map
      SearchResult.relevance = [(0.15 : ℝ)]) ∧
    ((search_fts "w" [⟨"a", "note", "c", "", none, -1⟩] 5).map
      SearchResult.relevance = [(1 / 2 : ℝ)]) ∧
    (0.15 : ℝ) ≠ 1 / 2 := by
  refine ⟨?_, ?_, by norm_num⟩
  · rw [search_hybrid_none "w" [⟨"a", "note", "c", "", none, -1⟩] [] [] 5 (by decide),
      search_fts_concrete]
    simp only [List.map_cons, List.map_nil]
    rw [apply_temporal_decay_none]
    have hr4 : round4 (0.3 * (1 / 2 : ℝ)) = 0.15 := by
      rw [round4, show (0.3 : ℝ) * (1 / 2) * 10000 = ((1500 : ℤ) : ℝ) by push_cast; norm_num,
        round_intCast]
      norm_num
    rw [hr4]
    simp [sortTruncate, List.mergeSort]
  · rw [search_fts_concrete]
    rfl
